import Mathlib

/-!
Verification of the distinct-count estimators and DP mechanisms of the
privately-counting-distinct-elements repository, via a shallow embedding of
dataset.py, distinct_count.py, selection.py, report/dp.py and
shifted_inverse.py.
-/

namespace PCDE

/-- A dataset: one list of value identifiers per user (dataset.py, class
DataSet; the constructor stores the per-user lists as given). -/
abbrev DataSet := List (List Nat)

/-- The set of all value identifiers occurring in the dataset
(dataset.py line 81: the set comprehension defining number_of_values). -/
def valueFinset (data : DataSet) : Finset Nat :=
  data.foldr (fun r acc => r.toFinset ∪ acc) ∅

/-- dataset.py: DataSet.number_of_values. -/
def numberOfValues (data : DataSet) : Nat := (valueFinset data).card

/-- dataset.py line 80: DataSet.degree, the maximum user contribution size. -/
def degree (data : DataSet) : Nat := data.foldr (fun r acc => max r.length acc) 0

/-- Well-formedness invariants of the data model (spec section 3, maintained by
prepare_dataset in dataset.py): each user list has no duplicate entries, and
value ids are contiguous and 0-based. -/
def WF (data : DataSet) : Prop :=
  (∀ r ∈ data, r.Nodup) ∧ valueFinset data = Finset.range (numberOfValues data)

instance (data : DataSet) : Decidable (WF data) := by
  unfold WF; infer_instance

/-- distinct_count.py: true_distinct_count. -/
def true_distinct_count (data : DataSet) : Nat := numberOfValues data

theorem mem_valueFinset {data : DataSet} {v : Nat} :
    v ∈ valueFinset data ↔ ∃ r ∈ data, v ∈ r := by
  induction data with
  | nil => simp [valueFinset]
  | cons r rs ih =>
      simp only [valueFinset, List.foldr_cons, Finset.mem_union, List.mem_toFinset]
      constructor
      · rintro (h | h)
        · exact ⟨r, List.mem_cons_self _ _, h⟩
        · obtain ⟨s, hs, hv⟩ := (ih).mp h
          exact ⟨s, List.mem_cons_of_mem _ hs, hv⟩
      · rintro ⟨s, hs, hv⟩
        rcases List.mem_cons.mp hs with h | h
        · exact Or.inl (h ▸ hv)
        · exact Or.inr ((ih).mpr ⟨s, h, hv⟩)

/-- The user/value incidence pairs of the dataset: the nonzero entries of the
incidence matrix built by _to_matrix in dataset.py. -/
def contribPairs (data : DataSet) : Finset (Nat × Nat) :=
  (Finset.range data.length).biUnion
    (fun u => (data.getD u []).toFinset.image (fun v => (u, v)))

theorem mem_contribPairs {data : DataSet} {p : Nat × Nat} :
    p ∈ contribPairs data ↔ p.1 < data.length ∧ p.2 ∈ data.getD p.1 [] := by
  cases p with
  | mk u v =>
      simp only [contribPairs, Finset.mem_biUnion, Finset.mem_range,
        Finset.mem_image, List.mem_toFinset]
      constructor
      · rintro ⟨w, hw, x, hx, hxy⟩
        cases hxy
        exact ⟨hw, hx⟩
      · rintro ⟨hu, hv⟩
        exact ⟨u, hu, v, hv, rfl⟩

theorem getD_mem_of_lt {l : List (List Nat)} {i : Nat} (h : i < l.length) :
    l.getD i [] ∈ l := by
  induction l generalizing i with
  | nil => simp at h
  | cons x xs ih =>
      cases i with
      | zero => simp
      | succ j =>
          simp only [List.getD_cons_succ]
          exact List.mem_cons_of_mem _ (ih (by simpa using h))

theorem snd_mem_valueFinset {data : DataSet} {p : Nat × Nat}
    (hp : p ∈ contribPairs data) : p.2 ∈ valueFinset data := by
  obtain ⟨hu, hv⟩ := mem_contribPairs.mp hp
  exact mem_valueFinset.mpr ⟨data.getD p.1 [], getD_mem_of_lt hu, hv⟩

theorem length_le_degree {data : DataSet} {r : List Nat} (hr : r ∈ data) :
    r.length ≤ degree data := by
  induction data with
  | nil => cases hr
  | cons s ss ih =>
      rcases List.mem_cons.mp hr with h | h
      · subst h; exact le_max_left _ _
      · exact le_trans (ih h) (le_max_right _ _)

/-! ### Matching-based estimator

distinct_count.py: matching_distinct_count stacks user_contribution_bound
copies of the incidence matrix and counts the matched columns of a maximum
bipartite matching (scipy.sparse.csgraph.maximum_bipartite_matching computes a
maximum-cardinality matching of the bipartite graph whose edges are the
nonzero entries).  We embed the duplicated-row bipartite graph by its edge
set: an edge ((c, u), v) connects copy c of user u to value v. -/

/-- Edges of the bipartite graph on which matching_distinct_count runs:
row (c, u) is copy c (c < bound) of user u, columns are values. -/
def dupEdges (data : DataSet) (b : Nat) : Finset ((Nat × Nat) × Nat) :=
  (Finset.range b).biUnion
    (fun c => (contribPairs data).image (fun p => ((c, p.1), p.2)))

theorem mem_dupEdges {data : DataSet} {b : Nat} {e : (Nat × Nat) × Nat} :
    e ∈ dupEdges data b ↔ e.1.1 < b ∧ (e.1.2, e.2) ∈ contribPairs data := by
  rcases e with ⟨⟨c, u⟩, v⟩
  simp only [dupEdges, Finset.mem_biUnion, Finset.mem_range, Finset.mem_image]
  constructor
  · rintro ⟨w, hw, p, hp, hpe⟩
    cases hpe
    exact ⟨hw, hp⟩
  · rintro ⟨hc, hp⟩
    exact ⟨c, hc, (u, v), hp, rfl⟩

/-- A set of row/column pairs is a matching when no row and no column is used
twice. -/
def IsMatching (M : Finset ((Nat × Nat) × Nat)) : Prop :=
  (∀ e ∈ M, ∀ f ∈ M, e.1 = f.1 → e = f) ∧
  (∀ e ∈ M, ∀ f ∈ M, e.2 = f.2 → e = f)

instance (M : Finset ((Nat × Nat) × Nat)) : Decidable (IsMatching M) := by
  unfold IsMatching; infer_instance

/-- distinct_count.py: matching_distinct_count, as the maximum cardinality of
a matching of the duplicated-row bipartite graph (the number of matched
columns equals the matching cardinality). -/
def matching_distinct_count (data : DataSet) (b : Nat) : Nat :=
  Finset.sup ((dupEdges data b).powerset.filter IsMatching) Finset.card

/-! ### Bounded selections

The combinatorial object shared by all estimator comparisons: a set of
incidence pairs using every value at most once and every user at most b
times.  This is a proof device relating the matching, flow, greedy and
sampling results; it embeds no source function. -/

/-- S is a b-bounded selection of incidence pairs: all pairs are real
contributions, values are pairwise distinct, and no user occurs more than
b times. -/
def IsSelection (data : DataSet) (b : Nat) (S : Finset (Nat × Nat)) : Prop :=
  S ⊆ contribPairs data ∧
  (∀ p ∈ S, ∀ q ∈ S, p.2 = q.2 → p = q) ∧
  ∀ u, (S.filter (fun p => p.1 = u)).card ≤ b

theorem selection_card_le_values {data : DataSet} {b : Nat} {S : Finset (Nat × Nat)}
    (hS : IsSelection data b S) : S.card ≤ numberOfValues data := by
  obtain ⟨hsub, hinj, _⟩ := hS
  have : S.card = (S.image Prod.snd).card := by
    refine (Finset.card_image_of_injOn ?_).symm
    intro p hp q hq h
    exact hinj p hp q hq h
  rw [this]
  apply Finset.card_le_card
  intro v hv
  obtain ⟨p, hp, hpv⟩ := Finset.mem_image.mp hv
  exact hpv ▸ snd_mem_valueFinset (hsub hp)

/-- The per-user rank of a pair inside a selection: the number of pairs of the
same user with smaller value. -/
def selRank (S : Finset (Nat × Nat)) (p : Nat × Nat) : Nat :=
  (S.filter (fun q => q.1 = p.1 ∧ q.2 < p.2)).card

theorem selRank_lt_bound {data : DataSet} {b : Nat} {S : Finset (Nat × Nat)}
    (hS : IsSelection data b S) {p : Nat × Nat} (hp : p ∈ S) : selRank S p < b := by
  obtain ⟨_, _, hmult⟩ := hS
  have hsub : S.filter (fun q => q.1 = p.1 ∧ q.2 < p.2) ⊆
      (S.filter (fun q => q.1 = p.1)).erase p := by
    intro q hq
    obtain ⟨hqS, hq1, hq2⟩ := Finset.mem_filter.mp hq
    refine Finset.mem_erase.mpr ⟨?_, Finset.mem_filter.mpr ⟨hqS, hq1⟩⟩
    intro h; subst h; exact lt_irrefl _ hq2
  have hmem : p ∈ S.filter (fun q => q.1 = p.1) := Finset.mem_filter.mpr ⟨hp, rfl⟩
  have hpos : 0 < (S.filter (fun q => q.1 = p.1)).card := Finset.card_pos.mpr ⟨p, hmem⟩
  have h1 : selRank S p ≤ (S.filter (fun q => q.1 = p.1)).card - 1 := by
    have := Finset.card_le_card hsub
    simpa [Finset.card_erase_of_mem hmem] using this
  have h2 : (S.filter (fun q => q.1 = p.1)).card ≤ b := hmult p.1
  omega

theorem selRank_strict_mono {S : Finset (Nat × Nat)} {p q : Nat × Nat}
    (hp : p ∈ S) (h1 : p.1 = q.1) (h2 : p.2 < q.2) :
    selRank S p < selRank S q := by
  have hsub : insert p (S.filter (fun x => x.1 = p.1 ∧ x.2 < p.2)) ⊆
      S.filter (fun x => x.1 = q.1 ∧ x.2 < q.2) := by
    intro x hx
    rcases Finset.mem_insert.mp hx with h | h
    · subst h; exact Finset.mem_filter.mpr ⟨hp, h1, h2⟩
    · obtain ⟨hxS, hx1, hx2⟩ := Finset.mem_filter.mp h
      exact Finset.mem_filter.mpr ⟨hxS, hx1.trans h1, hx2.trans h2⟩
  have hni : p ∉ S.filter (fun x => x.1 = p.1 ∧ x.2 < p.2) := by
    intro h
    exact absurd (Finset.mem_filter.mp h).2.2 (lt_irrefl _)
  have := Finset.card_le_card hsub
  rw [Finset.card_insert_of_not_mem hni] at this
  exact lt_of_lt_of_le (Nat.lt_succ_self _) this

/-- Every b-bounded selection gives rise to a matching of the same size,
hence is dominated by matching_distinct_count. -/
theorem selection_le_matching {data : DataSet} {b : Nat} {S : Finset (Nat × Nat)}
    (hS : IsSelection data b S) : S.card ≤ matching_distinct_count data b := by
  classical
  obtain ⟨hsub, hinj, hmult⟩ := hS
  set φ : Nat × Nat → (Nat × Nat) × Nat := fun p => ((selRank S p, p.1), p.2) with hφ
  have hinjφ : Set.InjOn φ S := by
    intro p hp q hq h
    have h2 := congrArg Prod.snd h
    exact hinj p hp q hq h2
  set M : Finset ((Nat × Nat) × Nat) := S.image φ with hM
  have hcard : M.card = S.card := Finset.card_image_of_injOn hinjφ
  have hMsub : M ⊆ dupEdges data b := by
    intro e he
    obtain ⟨p, hp, hpe⟩ := Finset.mem_image.mp he
    subst hpe
    exact mem_dupEdges.mpr ⟨selRank_lt_bound ⟨hsub, hinj, hmult⟩ hp, hsub hp⟩
  have hmatch : IsMatching M := by
    constructor
    · intro e he f hf hef
      obtain ⟨p, hp, hpe⟩ := Finset.mem_image.mp he
      obtain ⟨q, hq, hqf⟩ := Finset.mem_image.mp hf
      subst hpe; subst hqf
      have h1 : p.1 = q.1 := congrArg Prod.snd hef
      have hr : selRank S p = selRank S q := congrArg Prod.fst hef
      by_cases hpq : p = q
      · subst hpq; rfl
      · exfalso
        have h2 : p.2 ≠ q.2 := fun h => hpq (hinj p hp q hq h)
        rcases lt_or_gt_of_ne h2 with h | h
        · exact absurd hr (Nat.ne_of_lt (selRank_strict_mono hp h1 h))
        · exact absurd hr.symm (Nat.ne_of_lt (selRank_strict_mono hq h1.symm h))
    · intro e he f hf hef
      obtain ⟨p, hp, hpe⟩ := Finset.mem_image.mp he
      obtain ⟨q, hq, hqf⟩ := Finset.mem_image.mp hf
      subst hpe; subst hqf
      have h2 : p.2 = q.2 := hef
      exact congrArg φ (hinj p hp q hq h2)
  calc S.card = M.card := hcard.symm
    _ ≤ Finset.sup ((dupEdges data b).powerset.filter IsMatching) Finset.card := by
        apply Finset.le_sup
        exact Finset.mem_filter.mpr ⟨Finset.mem_powerset.mpr hMsub, hmatch⟩

/-- Every matching of the duplicated-row graph projects to a b-bounded
selection of the same size. -/
theorem selection_of_matching {data : DataSet} {b : Nat}
    {M : Finset ((Nat × Nat) × Nat)} (hMsub : M ⊆ dupEdges data b)
    (hmatch : IsMatching M) :
    ∃ S : Finset (Nat × Nat), IsSelection data b S ∧ S.card = M.card := by
  classical
  obtain ⟨hrow, hcol⟩ := hmatch
  set ψ : (Nat × Nat) × Nat → Nat × Nat := fun e => (e.1.2, e.2) with hψ
  refine ⟨M.image ψ, ⟨?_, ?_, ?_⟩, ?_⟩
  · intro x hx
    obtain ⟨e, he, hex⟩ := Finset.mem_image.mp hx
    subst hex
    exact (mem_dupEdges.mp (hMsub he)).2
  · intro p hp q hq hpq
    obtain ⟨e, he, hep⟩ := Finset.mem_image.mp hp
    obtain ⟨f, hf, hfq⟩ := Finset.mem_image.mp hq
    subst hep; subst hfq
    exact congrArg ψ (hcol e he f hf hpq)
  · intro u
    have himg : (M.image ψ).filter (fun p => p.1 = u) ⊆
        (M.filter (fun e => e.1.2 = u)).image ψ := by
      intro p hp
      obtain ⟨hpM, hpu⟩ := Finset.mem_filter.mp hp
      obtain ⟨e, he, hep⟩ := Finset.mem_image.mp hpM
      refine Finset.mem_image.mpr ⟨e, Finset.mem_filter.mpr ⟨he, ?_⟩, hep⟩
      rw [← hpu, ← hep]
    have h1 : ((M.image ψ).filter (fun p => p.1 = u)).card ≤
        (M.filter (fun e => e.1.2 = u)).card :=
      le_trans (Finset.card_le_card himg) Finset.card_image_le
    have h2 : (M.filter (fun e => e.1.2 = u)).card ≤ (Finset.range b).card := by
      apply Finset.card_le_card_of_injOn (fun e => e.1.1)
      · intro e he
        exact Finset.mem_range.mpr (mem_dupEdges.mp (hMsub (Finset.mem_filter.mp he).1)).1
      · intro e he f hf hc
        obtain ⟨heM, heu⟩ := Finset.mem_filter.mp he
        obtain ⟨hfM, hfu⟩ := Finset.mem_filter.mp hf
        apply hrow e heM f hfM
        have : e.1 = (e.1.1, e.1.2) := rfl
        rw [Prod.ext_iff]
        exact ⟨hc, heu.trans hfu.symm⟩
    simpa using le_trans h1 h2
  · refine Finset.card_image_of_injOn ?_
    intro e he f hf h
    have h2 := congrArg Prod.snd h
    exact hcol e he f hf h2

/-- matching_distinct_count is the maximum size of a b-bounded selection:
upper-bound direction. -/
theorem matching_le_of_selections {data : DataSet} {b k : Nat}
    (h : ∀ S : Finset (Nat × Nat), IsSelection data b S → S.card ≤ k) :
    matching_distinct_count data b ≤ k := by
  apply Finset.sup_le
  intro M hM
  obtain ⟨hMsub, hmatch⟩ := Finset.mem_filter.mp hM
  obtain ⟨S, hS, hcard⟩ := selection_of_matching (Finset.mem_powerset.mp hMsub) hmatch
  exact hcard ▸ h S hS

/-! ### Flow-based estimator

dataset.py: _to_flow_matrix builds a capacity matrix on nodes
{0 = source, 1 = sink, user u at u + 2, value v at v + number_of_users + 2}
with capacity bound on source-to-user edges, 1 on user-to-value contribution
edges and 1 on value-to-sink edges.  distinct_count.py: flow_distinct_count
returns the maximum-flow value from node 0 to node 1
(scipy.sparse.csgraph.maximum_flow; with integer capacities its flow value is
the maximum over integer-valued feasible flows). -/

/-- Node id of user u in the flow network (dataset.py _to_flow_matrix). -/
def userNode (u : Nat) : Nat := u + 2

/-- Node id of value v in the flow network (dataset.py _to_flow_matrix). -/
def valueNode (n v : Nat) : Nat := v + n + 2

/-- The edges of the flow network (the nonzero entries of the matrix built by
_to_flow_matrix). -/
def flowEdges (data : DataSet) : Finset (Nat × Nat) :=
  ((Finset.range data.length).image (fun u => (0, userNode u)))
  ∪ ((Finset.range (numberOfValues data)).image
      (fun v => (valueNode data.length v, 1)))
  ∪ ((contribPairs data).image
      (fun p => (userNode p.1, valueNode data.length p.2)))

/-- Edge capacities: bound on source edges, 1 elsewhere. -/
def edgeCap (b : Nat) (e : Nat × Nat) : Nat := if e.1 = 0 then b else 1

/-- An integer flow assignment: a value in 0..b for every network edge. -/
abbrev FlowAssign (data : DataSet) (b : Nat) :=
  { e // e ∈ flowEdges data } → Fin (b + 1)

/-- The flow as a total function on candidate edges (0 off the network). -/
def extendF (data : DataSet) (b : Nat) (f : FlowAssign data b)
    (e : Nat × Nat) : Nat :=
  if h : e ∈ flowEdges data then (f ⟨e, h⟩ : Nat) else 0

/-- Total flow entering node w. -/
def inflow (data : DataSet) (b : Nat) (f : FlowAssign data b) (w : Nat) : Nat :=
  ∑ e in (flowEdges data).filter (fun e => e.2 = w), extendF data b f e

/-- Total flow leaving node w. -/
def outflow (data : DataSet) (b : Nat) (f : FlowAssign data b) (w : Nat) : Nat :=
  ∑ e in (flowEdges data).filter (fun e => e.1 = w), extendF data b f e

/-- Feasibility: capacities respected and conservation at all internal
nodes. -/
def Feasible (data : DataSet) (b : Nat) (f : FlowAssign data b) : Prop :=
  (∀ e ∈ flowEdges data, extendF data b f e ≤ edgeCap b e) ∧
  (∀ w ∈ Finset.range (data.length + numberOfValues data + 2),
    w ≠ 0 → w ≠ 1 → inflow data b f w = outflow data b f w)

instance (data : DataSet) (b : Nat) : DecidablePred (Feasible data b) := by
  intro f; unfold Feasible; infer_instance

/-- The flow value: total flow leaving the source. -/
def flowValue (data : DataSet) (b : Nat) (f : FlowAssign data b) : Nat :=
  outflow data b f 0

/-- distinct_count.py: flow_distinct_count, the maximum source-to-sink flow
value in the network built by _to_flow_matrix. -/
def flow_distinct_count (data : DataSet) (b : Nat) : Nat :=
  Finset.sup (Finset.univ.filter (Feasible data b)) (flowValue data b)

theorem mem_flowEdges {data : DataSet} {e : Nat × Nat} :
    e ∈ flowEdges data ↔
      (∃ u, u < data.length ∧ e = (0, userNode u)) ∨
      (∃ v, v < numberOfValues data ∧ e = (valueNode data.length v, 1)) ∨
      (∃ p, p ∈ contribPairs data ∧ e = (userNode p.1, valueNode data.length p.2)) := by
  simp only [flowEdges, Finset.mem_union, Finset.mem_image, Finset.mem_range]
  constructor
  · rintro ((⟨u, hu, he⟩ | ⟨v, hv, he⟩) | ⟨p, hp, he⟩)
    · exact Or.inl ⟨u, hu, he.symm⟩
    · exact Or.inr (Or.inl ⟨v, hv, he.symm⟩)
    · exact Or.inr (Or.inr ⟨p, hp, he.symm⟩)
  · rintro (⟨u, hu, he⟩ | ⟨v, hv, he⟩ | ⟨p, hp, he⟩)
    · exact Or.inl (Or.inl ⟨u, hu, he.symm⟩)
    · exact Or.inl (Or.inr ⟨v, hv, he.symm⟩)
    · exact Or.inr ⟨p, hp, he.symm⟩

theorem mid_mem_flowEdges {data : DataSet} {p : Nat × Nat}
    (hp : p ∈ contribPairs data) :
    (userNode p.1, valueNode data.length p.2) ∈ flowEdges data :=
  mem_flowEdges.mpr (Or.inr (Or.inr ⟨p, hp, rfl⟩))

theorem source_mem_flowEdges {data : DataSet} {u : Nat} (hu : u < data.length) :
    (0, userNode u) ∈ flowEdges data :=
  mem_flowEdges.mpr (Or.inl ⟨u, hu, rfl⟩)

theorem sink_mem_flowEdges {data : DataSet} {v : Nat}
    (hv : v < numberOfValues data) :
    (valueNode data.length v, 1) ∈ flowEdges data :=
  mem_flowEdges.mpr (Or.inr (Or.inl ⟨v, hv, rfl⟩))

theorem filter_source_edges (data : DataSet) :
    (flowEdges data).filter (fun e => e.1 = 0) =
      (Finset.range data.length).image (fun u => (0, userNode u)) := by
  ext e
  simp only [Finset.mem_filter, Finset.mem_image, Finset.mem_range]
  constructor
  · rintro ⟨he, h0⟩
    rcases mem_flowEdges.mp he with ⟨u, hu, rfl⟩ | ⟨v, hv, rfl⟩ | ⟨p, hp, rfl⟩
    · exact ⟨u, hu, rfl⟩
    · exact absurd h0 (by simp [valueNode])
    · exact absurd h0 (by simp [userNode])
  · rintro ⟨u, hu, rfl⟩
    exact ⟨source_mem_flowEdges hu, rfl⟩

theorem filter_into_user (data : DataSet) {u : Nat} (hu : u < data.length) :
    (flowEdges data).filter (fun e => e.2 = userNode u) = {(0, userNode u)} := by
  ext e
  simp only [Finset.mem_filter, Finset.mem_singleton]
  constructor
  · rintro ⟨he, h2⟩
    rcases mem_flowEdges.mp he with ⟨w, hw, rfl⟩ | ⟨v, hv, rfl⟩ | ⟨p, hp, rfl⟩
    · have : w = u := by simpa [userNode] using h2
      rw [this]
    · exact absurd h2 (by simp [userNode])
    · have hpn := (mem_contribPairs.mp hp).1
      simp only [valueNode, userNode] at h2
      omega
  · rintro rfl
    exact ⟨source_mem_flowEdges hu, rfl⟩

theorem filter_out_user (data : DataSet) {u : Nat} (hu : u < data.length) :
    (flowEdges data).filter (fun e => e.1 = userNode u) =
      ((contribPairs data).filter (fun p => p.1 = u)).image
        (fun p => (userNode p.1, valueNode data.length p.2)) := by
  ext e
  simp only [Finset.mem_filter, Finset.mem_image]
  constructor
  · rintro ⟨he, h1⟩
    rcases mem_flowEdges.mp he with ⟨w, hw, rfl⟩ | ⟨v, hv, rfl⟩ | ⟨p, hp, rfl⟩
    · exact absurd h1 (by simp [userNode])
    · exfalso
      simp only [valueNode, userNode] at h1
      omega
    · have : p.1 = u := by
        simp only [userNode] at h1
        omega
      exact ⟨p, ⟨hp, this⟩, by rw [this]⟩
  · rintro ⟨p, ⟨hpc, hpu⟩, rfl⟩
    exact ⟨mid_mem_flowEdges hpc, by rw [hpu]⟩

theorem filter_into_value (data : DataSet) {v : Nat} :
    (flowEdges data).filter (fun e => e.2 = valueNode data.length v) =
      ((contribPairs data).filter (fun p => p.2 = v)).image
        (fun p => (userNode p.1, valueNode data.length p.2)) := by
  ext e
  simp only [Finset.mem_filter, Finset.mem_image]
  constructor
  · rintro ⟨he, h2⟩
    rcases mem_flowEdges.mp he with ⟨w, hw, rfl⟩ | ⟨w, hw, rfl⟩ | ⟨p, hp, rfl⟩
    · exfalso
      simp only [valueNode, userNode] at h2
      omega
    · exact absurd h2 (by simp [valueNode])
    · have : p.2 = v := by
        simp only [valueNode] at h2
        omega
      exact ⟨p, ⟨hp, this⟩, by rw [this]⟩
  · rintro ⟨p, ⟨hpc, hpv⟩, rfl⟩
    exact ⟨mid_mem_flowEdges hpc, by rw [hpv]⟩

theorem filter_out_value (data : DataSet) {v : Nat}
    (hv : v < numberOfValues data) :
    (flowEdges data).filter (fun e => e.1 = valueNode data.length v) =
      {(valueNode data.length v, 1)} := by
  ext e
  simp only [Finset.mem_filter, Finset.mem_singleton]
  constructor
  · rintro ⟨he, h1⟩
    rcases mem_flowEdges.mp he with ⟨w, hw, rfl⟩ | ⟨w, hw, rfl⟩ | ⟨p, hp, rfl⟩
    · exact absurd h1 (by simp [valueNode])
    · simp only [valueNode] at h1 ⊢
      have : w = v := by omega
      rw [this]
    · exfalso
      have hpn := (mem_contribPairs.mp hp).1
      simp only [valueNode, userNode] at h1
      omega
  · rintro rfl
    exact ⟨sink_mem_flowEdges hv, rfl⟩

theorem midEdge_inj (n : Nat) :
    ∀ p q : Nat × Nat,
      (userNode p.1, valueNode n p.2) = (userNode q.1, valueNode n q.2) →
        p = q := by
  intro p q h
  have h1 : userNode p.1 = userNode q.1 := congrArg Prod.fst h
  have h2 : valueNode n p.2 = valueNode n q.2 := congrArg Prod.snd h
  simp only [userNode, valueNode] at h1 h2
  exact Prod.ext (by omega) (by omega)

theorem snd_lt_numberOfValues {data : DataSet} (hwf : WF data) {p : Nat × Nat}
    (hp : p ∈ contribPairs data) : p.2 < numberOfValues data := by
  have h := snd_mem_valueFinset hp
  rw [hwf.2] at h
  simpa using h

theorem flowValue_eq_sum_sources (data : DataSet) (b : Nat)
    (f : FlowAssign data b) :
    flowValue data b f =
      ∑ u in Finset.range data.length, extendF data b f (0, userNode u) := by
  unfold flowValue outflow
  rw [filter_source_edges, Finset.sum_image]
  intro u _ w _ h
  simpa [userNode] using congrArg Prod.snd h

theorem inflow_user (data : DataSet) (b : Nat) (f : FlowAssign data b)
    {u : Nat} (hu : u < data.length) :
    inflow data b f (userNode u) = extendF data b f (0, userNode u) := by
  unfold inflow
  rw [filter_into_user data hu, Finset.sum_singleton]

theorem outflow_user (data : DataSet) (b : Nat) (f : FlowAssign data b)
    {u : Nat} (hu : u < data.length) :
    outflow data b f (userNode u) =
      ∑ p in (contribPairs data).filter (fun p => p.1 = u),
        extendF data b f (userNode p.1, valueNode data.length p.2) := by
  unfold outflow
  rw [filter_out_user data hu, Finset.sum_image]
  intro p _ q _ h
  exact midEdge_inj data.length p q h

theorem inflow_value (data : DataSet) (b : Nat) (f : FlowAssign data b)
    (v : Nat) :
    inflow data b f (valueNode data.length v) =
      ∑ p in (contribPairs data).filter (fun p => p.2 = v),
        extendF data b f (userNode p.1, valueNode data.length p.2) := by
  unfold inflow
  rw [filter_into_value data, Finset.sum_image]
  intro p _ q _ h
  exact midEdge_inj data.length p q h

theorem outflow_value (data : DataSet) (b : Nat) (f : FlowAssign data b)
    {v : Nat} (hv : v < numberOfValues data) :
    outflow data b f (valueNode data.length v) =
      extendF data b f (valueNode data.length v, 1) := by
  unfold outflow
  rw [filter_out_value data hv, Finset.sum_singleton]

theorem mid_flow_le_one {data : DataSet} {b : Nat} {f : FlowAssign data b}
    (hf : Feasible data b f) {p : Nat × Nat} (hp : p ∈ contribPairs data) :
    extendF data b f (userNode p.1, valueNode data.length p.2) ≤ 1 := by
  have := hf.1 _ (mid_mem_flowEdges hp)
  simpa [edgeCap, userNode] using this

theorem source_flow_le_bound {data : DataSet} {b : Nat} {f : FlowAssign data b}
    (hf : Feasible data b f) {u : Nat} (hu : u < data.length) :
    extendF data b f (0, userNode u) ≤ b := by
  have := hf.1 _ (source_mem_flowEdges hu)
  simpa [edgeCap] using this

theorem conservation_user {data : DataSet} {b : Nat} {f : FlowAssign data b}
    (hf : Feasible data b f) {u : Nat} (hu : u < data.length) :
    inflow data b f (userNode u) = outflow data b f (userNode u) := by
  refine hf.2 (userNode u) ?_ (by simp [userNode]) (by simp [userNode])
  simp only [Finset.mem_range, userNode]
  omega

theorem conservation_value {data : DataSet} {b : Nat} {f : FlowAssign data b}
    (hf : Feasible data b f) {v : Nat} (hv : v < numberOfValues data) :
    inflow data b f (valueNode data.length v) =
      outflow data b f (valueNode data.length v) := by
  refine hf.2 (valueNode data.length v) ?_ (by simp [valueNode])
    (by simp [valueNode])
  simp only [Finset.mem_range, valueNode]
  omega

/-- A feasible flow projects to a b-bounded selection of the same value:
the pairs whose user-to-value edge carries one unit. -/
theorem selection_of_flow {data : DataSet} {b : Nat} (hwf : WF data)
    {f : FlowAssign data b} (hf : Feasible data b f) :
    ∃ S : Finset (Nat × Nat), IsSelection data b S ∧
      flowValue data b f = S.card := by
  classical
  set S : Finset (Nat × Nat) := (contribPairs data).filter
    (fun p => extendF data b f (userNode p.1, valueNode data.length p.2) = 1)
    with hSdef
  have hSsub : S ⊆ contribPairs data := Finset.filter_subset _ _
  have hSone : ∀ p ∈ S,
      extendF data b f (userNode p.1, valueNode data.length p.2) = 1 :=
    fun p hp => (Finset.mem_filter.mp hp).2
  have hvalinj : ∀ p ∈ S, ∀ q ∈ S, p.2 = q.2 → p = q := by
    intro p hp q hq hpq
    by_contra hne
    have hv : p.2 < numberOfValues data := snd_lt_numberOfValues hwf (hSsub hp)
    have hout : outflow data b f (valueNode data.length p.2) ≤ 1 := by
      rw [outflow_value data b f hv]
      have := hf.1 _ (sink_mem_flowEdges hv)
      simpa [edgeCap, valueNode] using this
    have hpair : ({p, q} : Finset (Nat × Nat)) ⊆
        (contribPairs data).filter (fun x => x.2 = p.2) := by
      intro x hx
      rcases Finset.mem_insert.mp hx with rfl | hx
      · exact Finset.mem_filter.mpr ⟨hSsub hp, rfl⟩
      · rw [Finset.mem_singleton] at hx
        subst hx
        exact Finset.mem_filter.mpr ⟨hSsub hq, hpq.symm⟩
    have h2 : (2 : Nat) ≤ inflow data b f (valueNode data.length p.2) := by
      rw [inflow_value data b f p.2]
      calc (2 : Nat) = ∑ x in ({p, q} : Finset (Nat × Nat)),
            extendF data b f (userNode x.1, valueNode data.length x.2) := by
              rw [Finset.sum_pair hne, hSone p hp, hSone q hq]
        _ ≤ _ := Finset.sum_le_sum_of_subset hpair
    rw [conservation_value hf hv] at h2
    omega
  have hmult : ∀ u, (S.filter (fun p => p.1 = u)).card ≤ b := by
    intro u
    by_cases hu : u < data.length
    · have hsum : (S.filter (fun p => p.1 = u)).card ≤
          ∑ p in (contribPairs data).filter (fun p => p.1 = u),
            extendF data b f (userNode p.1, valueNode data.length p.2) := by
        have hsub2 : S.filter (fun p => p.1 = u) ⊆
            (contribPairs data).filter (fun p => p.1 = u) := by
          intro p hp
          obtain ⟨hpS, hpu⟩ := Finset.mem_filter.mp hp
          exact Finset.mem_filter.mpr ⟨hSsub hpS, hpu⟩
        calc (S.filter (fun p => p.1 = u)).card
            = ∑ p in S.filter (fun p => p.1 = u),
                extendF data b f (userNode p.1, valueNode data.length p.2) := by
              rw [Finset.card_eq_sum_ones]
              refine Finset.sum_congr rfl ?_
              intro p hp
              exact (hSone p (Finset.mem_filter.mp hp).1).symm
          _ ≤ _ := Finset.sum_le_sum_of_subset hsub2
      have := hsum.trans (le_of_eq (outflow_user data b f hu).symm)
      rw [← conservation_user hf hu, inflow_user data b f hu] at this
      exact this.trans (source_flow_le_bound hf hu)
    · have : S.filter (fun p => p.1 = u) = ∅ := by
        refine Finset.filter_eq_empty_iff.mpr ?_
        intro p hp h1
        exact hu (h1 ▸ (mem_contribPairs.mp (hSsub hp)).1)
      simp [this]
  refine ⟨S, ⟨hSsub, hvalinj, hmult⟩, ?_⟩
  calc flowValue data b f
      = ∑ u in Finset.range data.length, extendF data b f (0, userNode u) :=
        flowValue_eq_sum_sources data b f
    _ = ∑ u in Finset.range data.length,
          ∑ p in (contribPairs data).filter (fun p => p.1 = u),
            extendF data b f (userNode p.1, valueNode data.length p.2) := by
        refine Finset.sum_congr rfl ?_
        intro u hu
        have hu2 := Finset.mem_range.mp hu
        rw [← inflow_user data b f hu2, conservation_user hf hu2,
          outflow_user data b f hu2]
    _ = ∑ p in contribPairs data,
          extendF data b f (userNode p.1, valueNode data.length p.2) := by
        refine Finset.sum_fiberwise_of_maps_to ?_ _
        intro p hp
        exact Finset.mem_range.mpr (mem_contribPairs.mp hp).1
    _ = S.card := by
        rw [← Finset.sum_filter_add_sum_filter_not (contribPairs data)
          (fun p => extendF data b f (userNode p.1, valueNode data.length p.2) = 1)]
        have hz : ∑ p in (contribPairs data).filter
            (fun p => ¬ extendF data b f
              (userNode p.1, valueNode data.length p.2) = 1),
            extendF data b f (userNode p.1, valueNode data.length p.2) = 0 := by
          refine Finset.sum_eq_zero ?_
          intro p hp
          obtain ⟨hpc, hpne⟩ := Finset.mem_filter.mp hp
          have := mid_flow_le_one hf hpc
          omega
        rw [hz, Nat.add_zero, hSdef, Finset.card_eq_sum_ones]
        refine Finset.sum_congr rfl ?_
        intro p hp
        exact (Finset.mem_filter.mp hp).2

/-- The flow function induced by a selection: each selected pair carries one
unit from its user to its value and on to the sink. -/
def selFlowFun (data : DataSet) (S : Finset (Nat × Nat)) (e : Nat × Nat) : Nat :=
  if e.1 = 0 then (S.filter (fun p => p.1 = e.2 - 2)).card
  else if e.2 = 1 then
    (if (S.filter (fun p => p.2 = e.1 - (data.length + 2))).Nonempty then 1
     else 0)
  else if (e.1 - 2, e.2 - (data.length + 2)) ∈ S then 1 else 0

theorem selFlowFun_source (data : DataSet) (S : Finset (Nat × Nat)) (u : Nat) :
    selFlowFun data S (0, userNode u) = (S.filter (fun p => p.1 = u)).card := by
  simp [selFlowFun, userNode]

theorem selFlowFun_sink (data : DataSet) (S : Finset (Nat × Nat)) (v : Nat) :
    selFlowFun data S (valueNode data.length v, 1) =
      (if (S.filter (fun p => p.2 = v)).Nonempty then 1 else 0) := by
  have h0 : valueNode data.length v ≠ 0 := by simp [valueNode]
  have hd : valueNode data.length v - (data.length + 2) = v := by
    simp only [valueNode]; omega
  simp [selFlowFun, h0, hd]

theorem selFlowFun_mid (data : DataSet) (S : Finset (Nat × Nat))
    (p : Nat × Nat) :
    selFlowFun data S (userNode p.1, valueNode data.length p.2) =
      (if p ∈ S then 1 else 0) := by
  have h0 : userNode p.1 ≠ 0 := by simp [userNode]
  have h1 : valueNode data.length p.2 ≠ 1 := by simp [valueNode]
  have hd1 : userNode p.1 - 2 = p.1 := by simp [userNode]
  have hd2 : valueNode data.length p.2 - (data.length + 2) = p.2 := by
    simp only [valueNode]; omega
  simp [selFlowFun, h0, h1, hd1, hd2]

theorem selFlowFun_le {data : DataSet} {b : Nat} {S : Finset (Nat × Nat)}
    (hS : IsSelection data b S) (hb : 1 ≤ b) :
    ∀ e ∈ flowEdges data, selFlowFun data S e ≤ b := by
  intro e he
  rcases mem_flowEdges.mp he with ⟨u, _, rfl⟩ | ⟨v, _, rfl⟩ | ⟨p, _, rfl⟩
  · rw [selFlowFun_source]; exact hS.2.2 u
  · rw [selFlowFun_sink]
    split <;> omega
  · rw [selFlowFun_mid]
    split <;> omega

theorem card_filter_snd_le_one {data : DataSet} {b : Nat}
    {S : Finset (Nat × Nat)} (hS : IsSelection data b S) (v : Nat) :
    (S.filter (fun p => p.2 = v)).card ≤ 1 := by
  refine Finset.card_le_one.mpr ?_
  intro p hp q hq
  obtain ⟨hpS, hpv⟩ := Finset.mem_filter.mp hp
  obtain ⟨hqS, hqv⟩ := Finset.mem_filter.mp hq
  exact hS.2.1 p hpS q hqS (hpv.trans hqv.symm)

/-- Every b-bounded selection induces a feasible flow of the same value. -/
theorem flow_of_selection {data : DataSet} {b : Nat}
    (hb : 1 ≤ b) {S : Finset (Nat × Nat)} (hS : IsSelection data b S) :
    ∃ f : FlowAssign data b, Feasible data b f ∧
      flowValue data b f = S.card := by
  classical
  set f : FlowAssign data b := fun e =>
    ⟨selFlowFun data S e.1, Nat.lt_succ_of_le (selFlowFun_le hS hb e.1 e.2)⟩
    with hfdef
  have hext : ∀ e ∈ flowEdges data, extendF data b f e = selFlowFun data S e := by
    intro e he
    simp [extendF, he, hfdef]
  have hcap : ∀ e ∈ flowEdges data, extendF data b f e ≤ edgeCap b e := by
    intro e he
    rw [hext e he]
    rcases mem_flowEdges.mp he with ⟨u, _, rfl⟩ | ⟨v, _, rfl⟩ | ⟨p, _, rfl⟩
    · rw [selFlowFun_source]
      simpa [edgeCap] using hS.2.2 u
    · rw [selFlowFun_sink]
      have : edgeCap b (valueNode data.length v, 1) = 1 := by
        simp [edgeCap, valueNode]
      rw [this]
      split <;> omega
    · rw [selFlowFun_mid]
      have : edgeCap b (userNode p.1, valueNode data.length p.2) = 1 := by
        simp [edgeCap, userNode]
      rw [this]
      split <;> omega
  have hmid : ∀ p ∈ contribPairs data,
      extendF data b f (userNode p.1, valueNode data.length p.2) =
        (if p ∈ S then 1 else 0) := by
    intro p hp
    rw [hext _ (mid_mem_flowEdges hp), selFlowFun_mid]
  have hmidsum : ∀ (T : Finset (Nat × Nat)), T ⊆ contribPairs data →
      (∑ p in T, extendF data b f (userNode p.1, valueNode data.length p.2)) =
        (T.filter (fun p => p ∈ S)).card := by
    intro T hT
    rw [Finset.card_eq_sum_ones, Finset.sum_filter]
    refine Finset.sum_congr rfl ?_
    intro p hp
    rw [hmid p (hT hp)]
  have hfiber1 : ∀ u, (contribPairs data).filter (fun p => p.1 = u) ⊆
      contribPairs data := fun u => Finset.filter_subset _ _
  have hfilter_fst : ∀ u,
      (((contribPairs data).filter (fun p => p.1 = u)).filter
        (fun p => p ∈ S)) = S.filter (fun p => p.1 = u) := by
    intro u
    ext p
    simp only [Finset.mem_filter]
    constructor
    · rintro ⟨⟨_, hpu⟩, hpS⟩
      exact ⟨hpS, hpu⟩
    · rintro ⟨hpS, hpu⟩
      exact ⟨⟨hS.1 hpS, hpu⟩, hpS⟩
  have hfilter_snd : ∀ v,
      (((contribPairs data).filter (fun p => p.2 = v)).filter
        (fun p => p ∈ S)) = S.filter (fun p => p.2 = v) := by
    intro v
    ext p
    simp only [Finset.mem_filter]
    constructor
    · rintro ⟨⟨_, hpv⟩, hpS⟩
      exact ⟨hpS, hpv⟩
    · rintro ⟨hpS, hpv⟩
      exact ⟨⟨hS.1 hpS, hpv⟩, hpS⟩
  have hcons : ∀ w ∈ Finset.range (data.length + numberOfValues data + 2),
      w ≠ 0 → w ≠ 1 → inflow data b f w = outflow data b f w := by
    intro w hw hw0 hw1
    have hwlt := Finset.mem_range.mp hw
    by_cases hwu : w < data.length + 2
    · -- w is a user node
      obtain ⟨u, hu, rfl⟩ : ∃ u, u < data.length ∧ w = userNode u := by
        refine ⟨w - 2, by omega, ?_⟩
        simp only [userNode]; omega
      rw [inflow_user data b f hu, outflow_user data b f hu,
        hext _ (source_mem_flowEdges hu), selFlowFun_source,
        hmidsum _ (hfiber1 u), hfilter_fst u]
    · -- w is a value node
      obtain ⟨v, hv, rfl⟩ : ∃ v, v < numberOfValues data ∧
          w = valueNode data.length v := by
        refine ⟨w - (data.length + 2), by omega, ?_⟩
        simp only [valueNode]; omega
      rw [inflow_value data b f v, outflow_value data b f hv,
        hext _ (sink_mem_flowEdges hv), selFlowFun_sink,
        hmidsum _ (Finset.filter_subset _ _), hfilter_snd v]
      have hle := card_filter_snd_le_one hS v
      split
      · next h =>
          have := Finset.card_pos.mpr h
          omega
      · next h =>
          rw [Finset.not_nonempty_iff_eq_empty.mp h, Finset.card_empty]
  refine ⟨f, ⟨hcap, hcons⟩, ?_⟩
  rw [flowValue_eq_sum_sources]
  have hsrc : ∀ u ∈ Finset.range data.length,
      extendF data b f (0, userNode u) = (S.filter (fun p => p.1 = u)).card := by
    intro u hu
    rw [hext _ (source_mem_flowEdges (Finset.mem_range.mp hu)),
      selFlowFun_source]
  rw [Finset.sum_congr rfl hsrc]
  exact (Finset.card_eq_sum_card_fiberwise
    (fun p hp => Finset.mem_range.mpr (mem_contribPairs.mp (hS.1 hp)).1)).symm

/-- The matching and flow estimators compute the same combinatorial optimum. -/
theorem matching_eq_flow {data : DataSet} {b : Nat} (hwf : WF data)
    (hb : 1 ≤ b) :
    matching_distinct_count data b = flow_distinct_count data b := by
  refine le_antisymm ?_ ?_
  · refine matching_le_of_selections ?_
    intro S hS
    obtain ⟨f, hfeas, hval⟩ := flow_of_selection hb hS
    rw [← hval]
    exact Finset.le_sup (Finset.mem_filter.mpr ⟨Finset.mem_univ f, hfeas⟩)
  · refine Finset.sup_le ?_
    intro f hf
    obtain ⟨S, hS, hval⟩ := selection_of_flow hwf (Finset.mem_filter.mp hf).2
    rw [hval]
    exact selection_le_matching hS

/-! ### Greedy estimator

distinct_count.py: greedy_distinct_count keeps a cursor per user and a result
set; it runs user_contribution_bound rounds, and in each round every user (in
id order) advances its cursor past already-seen values until it can add one
new value.  The Python bound is an int and range(bound) performs
max(bound, 0) rounds, so the bound is embedded as an integer. -/

/-- The inner while loop (distinct_count.py lines 63-68) applied to the part
of the value list after the cursor: number of entries consumed and the value
added, if any. -/
def scanFrom : List Nat → Finset Nat → Nat × Option Nat
  | [], _ => (0, none)
  | x :: xs, res =>
      if x ∈ res then
        let p := scanFrom xs res
        (p.1 + 1, p.2)
      else (1, some x)

/-- The result set after possibly inserting the found value. -/
def resAfter (res : Finset Nat) : Option Nat → Finset Nat
  | none => res
  | some v => insert v res

/-- Processing of one user inside a round: advance its cursor and extend the
result set. -/
def userStep (data : DataSet) (i : Nat) (st : (Nat → Nat) × Finset Nat) :
    (Nat → Nat) × Finset Nat :=
  let s := scanFrom ((data.getD i []).drop (st.1 i)) st.2
  (Function.update st.1 i (st.1 i + s.1), resAfter st.2 s.2)

/-- One round (the for loop over users), processing the listed user ids in
order. -/
def processUsers (data : DataSet) : List Nat → ((Nat → Nat) × Finset Nat) →
    (Nat → Nat) × Finset Nat
  | [], st => st
  | i :: rest, st => processUsers data rest (userStep data i st)

/-- The greedy state (cursors, result set) after t rounds. -/
def greedyState (data : DataSet) : Nat → (Nat → Nat) × Finset Nat
  | 0 => (fun _ => 0, ∅)
  | t + 1 => processUsers data (List.range data.length) (greedyState data t)

/-- distinct_count.py: greedy_distinct_count. -/
def greedy_distinct_count (data : DataSet) (b : Int) : Nat :=
  ((greedyState data b.toNat).2).card

theorem subset_resAfter (res : Finset Nat) (o : Option Nat) :
    res ⊆ resAfter res o := by
  cases o with
  | none => exact Finset.Subset.refl _
  | some v => exact Finset.subset_insert _ _

theorem scanFrom_fst_le (l : List Nat) (res : Finset Nat) :
    (scanFrom l res).1 ≤ l.length := by
  induction l with
  | nil => simp [scanFrom]
  | cons x xs ih =>
      by_cases hx : x ∈ res <;> simp [scanFrom, hx]
      omega

theorem scanFrom_fst_pos {l : List Nat} (h : l ≠ []) (res : Finset Nat) :
    1 ≤ (scanFrom l res).1 := by
  cases l with
  | nil => exact absurd rfl h
  | cons x xs =>
      by_cases hx : x ∈ res <;> simp [scanFrom, hx]

theorem scanFrom_eq_length_of_none {l : List Nat} {res : Finset Nat}
    (h : (scanFrom l res).2 = none) : (scanFrom l res).1 = l.length := by
  induction l with
  | nil => simp [scanFrom]
  | cons x xs ih =>
      by_cases hx : x ∈ res
      · simp only [scanFrom, if_pos hx] at h ⊢
        rw [ih h]
        simp
      · simp [scanFrom, hx] at h

theorem scanFrom_some_mem {l : List Nat} {res : Finset Nat} {v : Nat}
    (h : (scanFrom l res).2 = some v) : v ∈ l ∧ v ∉ res := by
  induction l with
  | nil => simp [scanFrom] at h
  | cons x xs ih =>
      by_cases hx : x ∈ res
      · simp only [scanFrom, if_pos hx] at h
        obtain ⟨hv, hvr⟩ := ih h
        exact ⟨List.mem_cons_of_mem _ hv, hvr⟩
      · simp only [scanFrom, if_neg hx] at h
        cases h
        exact ⟨List.mem_cons_self _ _, hx⟩

theorem scanFrom_consumed_mem {l : List Nat} {res : Finset Nat} :
    ∀ j < (scanFrom l res).1,
      l.getD j 0 ∈ resAfter res (scanFrom l res).2 := by
  induction l with
  | nil => simp [scanFrom]
  | cons x xs ih =>
      intro j hj
      by_cases hx : x ∈ res
      · simp only [scanFrom, if_pos hx] at hj ⊢
        cases j with
        | zero =>
            simpa using subset_resAfter res (scanFrom xs res).2 hx
        | succ k =>
            simpa using ih k (by omega)
      · simp only [scanFrom, if_neg hx] at hj ⊢
        interval_cases j
        simp [resAfter]

theorem getD_drop_eq (l : List Nat) (k j : Nat) :
    (l.drop k).getD j 0 = l.getD (k + j) 0 := by
  induction l generalizing k with
  | nil => simp
  | cons x xs ih =>
      cases k with
      | zero => simp
      | succ k2 =>
          simp only [List.drop_succ_cons]
          rw [ih k2]
          have harith : k2 + 1 + j = (k2 + j) + 1 := by omega
          rw [harith, List.getD_cons_succ]

/-- processUsers never decreases a cursor. -/
theorem processUsers_pos_mono (data : DataSet) (L : List Nat)
    (st : (Nat → Nat) × Finset Nat) (i : Nat) :
    st.1 i ≤ (processUsers data L st).1 i := by
  induction L generalizing st with
  | nil => exact le_refl _
  | cons a rest ih =>
      refine le_trans ?_ (ih (userStep data a st))
      simp only [userStep]
      by_cases h : i = a
      · subst h
        rw [Function.update_same]
        omega
      · rw [Function.update_noteq h]

/-- processUsers never removes from the result set. -/
theorem processUsers_res_mono (data : DataSet) (L : List Nat)
    (st : (Nat → Nat) × Finset Nat) :
    st.2 ⊆ (processUsers data L st).2 := by
  induction L generalizing st with
  | nil => exact Finset.Subset.refl _
  | cons a rest ih =>
      exact Finset.Subset.trans (subset_resAfter _ _) (ih (userStep data a st))

/-- Cursors stay within the lists. -/
theorem processUsers_pos_le_length (data : DataSet) (L : List Nat)
    (st : (Nat → Nat) × Finset Nat)
    (h : ∀ i, st.1 i ≤ (data.getD i []).length) :
    ∀ i, (processUsers data L st).1 i ≤ (data.getD i []).length := by
  induction L generalizing st with
  | nil => exact h
  | cons a rest ih =>
      refine ih (userStep data a st) ?_
      intro i
      simp only [userStep]
      by_cases heq : i = a
      · subst heq
        rw [Function.update_same]
        have h1 := scanFrom_fst_le ((data.getD i []).drop (st.1 i)) st.2
        rw [List.length_drop] at h1
        have := h i
        omega
      · rw [Function.update_noteq heq]
        exact h i

/-- Values before the cursor are always in the result set. -/
theorem processUsers_scanned (data : DataSet) (L : List Nat)
    (st : (Nat → Nat) × Finset Nat)
    (h : ∀ i, ∀ j < st.1 i, (data.getD i []).getD j 0 ∈ st.2) :
    ∀ i, ∀ j < (processUsers data L st).1 i,
      (data.getD i []).getD j 0 ∈ (processUsers data L st).2 := by
  induction L generalizing st with
  | nil => exact h
  | cons a rest ih =>
      refine ih (userStep data a st) ?_
      intro i j hj
      simp only [userStep] at hj ⊢
      by_cases heq : i = a
      · subst heq
        rw [Function.update_same] at hj
        by_cases hjold : j < st.1 i
        · exact subset_resAfter _ _ (h i j hjold)
        · have hj2 : j - st.1 i <
              (scanFrom ((data.getD i []).drop (st.1 i)) st.2).1 := by
            omega
          have hm := scanFrom_consumed_mem (j - st.1 i) hj2
          rw [getD_drop_eq] at hm
          have harith : st.1 i + (j - st.1 i) = j := by omega
          rw [harith] at hm
          exact hm
      · rw [Function.update_noteq heq] at hj
        exact subset_resAfter _ _ (h i j hj)

/-- Each round advances every listed cursor that is not at the end. -/
theorem processUsers_progress (data : DataSet) (L : List Nat)
    (st : (Nat → Nat) × Finset Nat) :
    ∀ i ∈ L, min (st.1 i + 1) (data.getD i []).length ≤
      (processUsers data L st).1 i := by
  induction L generalizing st with
  | nil => intro i hi; cases hi
  | cons a rest ih =>
      intro i hi
      rcases List.mem_cons.mp hi with rfl | hi2
      · -- user i is processed first; afterwards the cursor only grows
        refine le_trans ?_ (processUsers_pos_mono data rest (userStep data i st) i)
        simp only [userStep, Function.update_same]
        by_cases hend : st.1 i < (data.getD i []).length
        · have hne : (data.getD i []).drop (st.1 i) ≠ [] := by
            intro hcon
            have := congrArg List.length hcon
            simp only [List.length_drop, List.length_nil] at this
            omega
          have := scanFrom_fst_pos hne st.2
          omega
        · omega
      · refine le_trans ?_ (ih (userStep data a st) i hi2)
        have hmono : st.1 i ≤ (userStep data a st).1 i := by
          simp only [userStep]
          by_cases h2 : i = a
          · subst h2
            rw [Function.update_same]
            omega
          · rw [Function.update_noteq h2]
        omega

/-- The result set stays inside the dataset values. -/
theorem processUsers_res_sub (data : DataSet) (L : List Nat)
    (st : (Nat → Nat) × Finset Nat) (hL : ∀ i ∈ L, i < data.length)
    (h : st.2 ⊆ valueFinset data) :
    (processUsers data L st).2 ⊆ valueFinset data := by
  induction L generalizing st with
  | nil => exact h
  | cons a rest ih =>
      refine ih (userStep data a st) (fun i hi => hL i (List.mem_cons_of_mem _ hi)) ?_
      simp only [userStep]
      rcases hsc : (scanFrom ((data.getD a []).drop (st.1 a)) st.2).2 with _ | v
      · simpa [resAfter] using h
      · simp only [resAfter]
        refine Finset.insert_subset ?_ h
        obtain ⟨hvl, _⟩ := scanFrom_some_mem hsc
        have hvrow : v ∈ data.getD a [] := List.mem_of_mem_drop hvl
        exact mem_valueFinset.mpr
          ⟨data.getD a [], getD_mem_of_lt (hL a (List.mem_cons_self _ _)), hvrow⟩

/-- Ghost invariant: the greedy result set is witnessed by a set of incidence
pairs whose per-user usage is bounded by cnt. -/
def GhostInv (data : DataSet) (res : Finset Nat) (cnt : Nat → Nat) : Prop :=
  ∃ S : Finset (Nat × Nat), S ⊆ contribPairs data ∧
    (∀ p ∈ S, ∀ q ∈ S, p.2 = q.2 → p = q) ∧
    S.image Prod.snd = res ∧
    ∀ u, (S.filter (fun p => p.1 = u)).card ≤ cnt u

theorem ghostInv_mono {data : DataSet} {res : Finset Nat} {cnt cnt2 : Nat → Nat}
    (h : GhostInv data res cnt) (hle : ∀ u, cnt u ≤ cnt2 u) :
    GhostInv data res cnt2 := by
  obtain ⟨S, h1, h2, h3, h4⟩ := h
  exact ⟨S, h1, h2, h3, fun u => le_trans (h4 u) (hle u)⟩

theorem ghostInv_userStep {data : DataSet} {a : Nat} (ha : a < data.length)
    {st : (Nat → Nat) × Finset Nat} {cnt : Nat → Nat}
    (h : GhostInv data st.2 cnt) :
    GhostInv data (userStep data a st).2
      (fun u => if u = a then cnt u + 1 else cnt u) := by
  classical
  obtain ⟨S, hsub, hinj, himg, hcnt⟩ := h
  simp only [userStep]
  rcases hsc : (scanFrom ((data.getD a []).drop (st.1 a)) st.2).2 with _ | v
  · simp only [resAfter]
    refine ⟨S, hsub, hinj, himg, ?_⟩
    intro u
    refine le_trans (hcnt u) ?_
    show cnt u ≤ if u = a then cnt u + 1 else cnt u
    split <;> omega
  · simp only [resAfter]
    obtain ⟨hvl, hvres⟩ := scanFrom_some_mem hsc
    have hvrow : v ∈ data.getD a [] := List.mem_of_mem_drop hvl
    have hpair : (a, v) ∈ contribPairs data := mem_contribPairs.mpr ⟨ha, hvrow⟩
    have hvnot : ∀ p ∈ S, p.2 ≠ v := by
      intro p hp hcon
      exact hvres (himg ▸ Finset.mem_image.mpr ⟨p, hp, hcon⟩)
    have hnotmem : (a, v) ∉ S := fun h => hvnot (a, v) h rfl
    refine ⟨insert (a, v) S, ?_, ?_, ?_, ?_⟩
    · exact Finset.insert_subset hpair hsub
    · intro p hp q hq hpq
      rcases Finset.mem_insert.mp hp with rfl | hp2
      · rcases Finset.mem_insert.mp hq with rfl | hq2
        · rfl
        · exact absurd hpq.symm (hvnot q hq2)
      · rcases Finset.mem_insert.mp hq with rfl | hq2
        · exact absurd hpq (hvnot p hp2)
        · exact hinj p hp2 q hq2 hpq
    · rw [Finset.image_insert, himg]
    · intro u
      show (Finset.filter (fun p => p.1 = u) (insert (a, v) S)).card ≤
        if u = a then cnt u + 1 else cnt u
      rw [Finset.filter_insert]
      by_cases hu : u = a
      · have hau : (a, v).1 = u := hu.symm
        rw [if_pos hu, if_pos hau]
        refine le_trans (Finset.card_insert_le _ _) ?_
        have := hcnt u
        omega
      · have hau : ¬ ((a, v).1 = u) := fun h => hu h.symm
        rw [if_neg hau, if_neg hu]
        exact hcnt u

theorem ghostInv_processUsers {data : DataSet} (L : List Nat)
    (hL : ∀ i ∈ L, i < data.length) (hnd : L.Nodup)
    {st : (Nat → Nat) × Finset Nat} {cnt : Nat → Nat}
    (h : GhostInv data st.2 cnt) :
    GhostInv data (processUsers data L st).2
      (fun u => if u ∈ L then cnt u + 1 else cnt u) := by
  classical
  induction L generalizing st cnt with
  | nil => simpa using h
  | cons a rest ih =>
      have ha : a < data.length := hL a (List.mem_cons_self _ _)
      have hstep := ghostInv_userStep ha h
      have hrest := ih (fun i hi => hL i (List.mem_cons_of_mem _ hi))
        (List.Nodup.of_cons hnd) hstep
      refine ghostInv_mono hrest ?_
      intro u
      have hanr : a ∉ rest := (List.nodup_cons.mp hnd).1
      by_cases h1 : u ∈ rest
      · have hua : ¬ u = a := fun hc => hanr (hc ▸ h1)
        simp [h1, hua, List.mem_cons]
      · by_cases h2 : u = a
        · subst h2
          simp [h1, hanr, List.mem_cons]
        · simp [h1, h2, List.mem_cons]

theorem ghostInv_greedyState (data : DataSet) (t : Nat) :
    GhostInv data (greedyState data t).2 (fun _ => t) := by
  induction t with
  | zero => exact ⟨∅, by simp, by simp, by simp [greedyState], by simp⟩
  | succ t2 ih =>
      have h := ghostInv_processUsers (List.range data.length)
        (fun i hi => List.mem_range.mp hi) (List.nodup_range _) ih
      refine ghostInv_mono h ?_
      intro u
      split <;> omega

/-- The greedy result after t rounds is at most the optimum with bound t. -/
theorem greedyState_card_le_matching (data : DataSet) (t : Nat) :
    ((greedyState data t).2).card ≤ matching_distinct_count data t := by
  obtain ⟨S, hsub, hinj, himg, hcnt⟩ := ghostInv_greedyState data t
  have hcard : ((greedyState data t).2).card = S.card := by
    rw [← himg]
    exact Finset.card_image_of_injOn (fun p hp q hq h => hinj p hp q hq h)
  rw [hcard]
  exact selection_le_matching ⟨hsub, hinj, hcnt⟩

theorem greedyState_pos_le (data : DataSet) (t : Nat) :
    ∀ i, (greedyState data t).1 i ≤ (data.getD i []).length := by
  induction t with
  | zero => intro i; simp [greedyState]
  | succ t2 ih => exact processUsers_pos_le_length data _ _ ih

theorem greedyState_scanned (data : DataSet) (t : Nat) :
    ∀ i, ∀ j < (greedyState data t).1 i,
      (data.getD i []).getD j 0 ∈ (greedyState data t).2 := by
  induction t with
  | zero => intro i j hj; simp [greedyState] at hj
  | succ t2 ih => exact processUsers_scanned data _ _ ih

theorem greedyState_res_sub (data : DataSet) (t : Nat) :
    (greedyState data t).2 ⊆ valueFinset data := by
  induction t with
  | zero => simp [greedyState]
  | succ t2 ih =>
      exact processUsers_res_sub data _ _ (fun i hi => List.mem_range.mp hi) ih

theorem greedyState_progress (data : DataSet) (t : Nat) :
    ∀ i < data.length,
      min t (data.getD i []).length ≤ (greedyState data t).1 i := by
  induction t with
  | zero => intro i _; simp [greedyState]
  | succ t2 ih =>
      intro i hi
      have h1 := processUsers_progress data (List.range data.length)
        (greedyState data t2) i (List.mem_range.mpr hi)
      have h2 := ih i hi
      simp only [greedyState]
      omega

theorem getD_eq_get_of_lt (l : List (List Nat)) {i : Nat} (h : i < l.length) :
    l.getD i [] = l.get ⟨i, h⟩ := by
  induction l generalizing i with
  | nil => simp at h
  | cons x xs ih =>
      cases i with
      | zero => rfl
      | succ j => exact ih (by simpa using h)

theorem getD_nat_eq_get_of_lt (l : List Nat) {i : Nat} (h : i < l.length) :
    l.getD i 0 = l.get ⟨i, h⟩ := by
  induction l generalizing i with
  | nil => simp at h
  | cons x xs ih =>
      cases i with
      | zero => rfl
      | succ j => exact ih (by simpa using h)

/-- After at least degree-many rounds the greedy result covers every value. -/
theorem greedyState_covers (data : DataSet) {t : Nat}
    (ht : degree data ≤ t) : valueFinset data ⊆ (greedyState data t).2 := by
  intro v hv
  obtain ⟨r, hr, hvr⟩ := mem_valueFinset.mp hv
  obtain ⟨⟨i, hi⟩, rfl⟩ := List.mem_iff_get.mp hr
  have hrow : data.getD i [] = data.get ⟨i, hi⟩ := getD_eq_get_of_lt data hi
  have hlen : (data.getD i []).length ≤ t :=
    le_trans (hrow ▸ length_le_degree (List.get_mem data i hi)) ht
  have hpos : (data.getD i []).length ≤ (greedyState data t).1 i := by
    have := greedyState_progress data t i hi
    omega
  obtain ⟨⟨j, hj⟩, rfl⟩ := List.mem_iff_get.mp hvr
  have hjlt : j < (greedyState data t).1 i := by
    rw [← hrow] at hj
    omega
  have hsc := greedyState_scanned data t i j hjlt
  rw [hrow] at hsc
  rwa [getD_nat_eq_get_of_lt _ hj] at hsc

/-! ### Sampling estimator

distinct_count.py: _sample and sampling_distinct_count.  The randomness is
modelled by quantifying over the admissible outcomes of random.sample. -/

/-- What one call _sample(values, num) can return (distinct_count.py lines
37-40): the whole list when it is shorter than num, otherwise some
duplicate-free list of num elements of values. -/
def Samples (values : List Nat) (num : Nat) (s : List Nat) : Prop :=
  (values.length < num ∧ s = values) ∨
  (num ≤ values.length ∧ s.length = num ∧ s.Nodup ∧ ∀ x ∈ s, x ∈ values)

instance (values : List Nat) (num : Nat) (s : List Nat) :
    Decidable (Samples values num s) := by
  unfold Samples; infer_instance

/-- An admissible joint outcome of the per-user draws made by
sampling_distinct_count. -/
def SamplesOk (data : DataSet) (b : Nat) (draws : List (List Nat)) : Prop :=
  draws.length = data.length ∧
  ∀ i < data.length, Samples (data.getD i []) b (draws.getD i [])

instance (data : DataSet) (b : Nat) (draws : List (List Nat)) :
    Decidable (SamplesOk data b draws) := by
  unfold SamplesOk; infer_instance

/-- distinct_count.py: sampling_distinct_count as a function of the random
draws: the size of the union of all drawn values. -/
def sampling_distinct_count (data : DataSet) (b : Nat)
    (draws : List (List Nat)) : Nat :=
  (valueFinset draws).card

/-- Index of the first row containing a value. -/
def firstOwner : List (List Nat) → Nat → Nat
  | [], _ => 0
  | r :: rs, v => if v ∈ r then 0 else firstOwner rs v + 1

theorem firstOwner_spec {l : List (List Nat)} {v : Nat}
    (h : ∃ r ∈ l, v ∈ r) :
    firstOwner l v < l.length ∧ v ∈ l.getD (firstOwner l v) [] := by
  induction l with
  | nil => obtain ⟨r, hr, _⟩ := h; cases hr
  | cons r rs ih =>
      by_cases hv : v ∈ r
      · simp [firstOwner, hv]
      · have h2 : ∃ s ∈ rs, v ∈ s := by
          obtain ⟨s, hs, hvs⟩ := h
          rcases List.mem_cons.mp hs with rfl | hs2
          · exact absurd hvs hv
          · exact ⟨s, hs2, hvs⟩
        obtain ⟨ih1, ih2⟩ := ih h2
        constructor
        · simp only [firstOwner, if_neg hv, List.length_cons]
          omega
        · simpa [firstOwner, hv] using ih2

/-- A value set covered by an assignment with per-user usage at most b is
dominated by some b-bounded selection. -/
theorem selection_of_cover {data : DataSet} {b : Nat} (V : Finset Nat)
    (asg : Nat → Nat)
    (h1 : ∀ v ∈ V, (asg v, v) ∈ contribPairs data)
    (h2 : ∀ u, (V.filter (fun v => asg v = u)).card ≤ b) :
    ∃ S : Finset (Nat × Nat), IsSelection data b S ∧ S.card = V.card := by
  classical
  set S : Finset (Nat × Nat) := V.image (fun v => (asg v, v)) with hSdef
  have hinj : Set.InjOn (fun v => (asg v, v)) V := by
    intro v _ w _ h
    exact congrArg Prod.snd h
  refine ⟨S, ⟨?_, ?_, ?_⟩, Finset.card_image_of_injOn hinj⟩
  · intro p hp
    obtain ⟨v, hv, rfl⟩ := Finset.mem_image.mp hp
    exact h1 v hv
  · intro p hp q hq hpq
    obtain ⟨v, hv, rfl⟩ := Finset.mem_image.mp hp
    obtain ⟨w, hw, rfl⟩ := Finset.mem_image.mp hq
    simp only at hpq
    rw [hpq]
  · intro u
    refine le_trans ?_ (h2 u)
    have hsub : S.filter (fun p => p.1 = u) ⊆
        (V.filter (fun v => asg v = u)).image (fun v => (asg v, v)) := by
      intro p hp
      obtain ⟨hpS, hpu⟩ := Finset.mem_filter.mp hp
      obtain ⟨v, hv, rfl⟩ := Finset.mem_image.mp hpS
      exact Finset.mem_image.mpr ⟨v, Finset.mem_filter.mpr ⟨hv, hpu⟩, rfl⟩
    exact le_trans (Finset.card_le_card hsub) Finset.card_image_le

theorem getD_of_le (l : List (List Nat)) {i : Nat} (h : l.length ≤ i) :
    l.getD i [] = [] := by
  induction l generalizing i with
  | nil => simp
  | cons x xs ih =>
      cases i with
      | zero => simp at h
      | succ j =>
          simp only [List.getD_cons_succ]
          exact ih (by simpa using h)

/-- The full value set is achievable by a selection once b is at least the
degree. -/
theorem values_le_matching {data : DataSet} {b : Nat}
    (hb : degree data ≤ b) :
    numberOfValues data ≤ matching_distinct_count data b := by
  classical
  have h1 : ∀ v ∈ valueFinset data, (firstOwner data v, v) ∈ contribPairs data := by
    intro v hv
    obtain ⟨ho1, ho2⟩ := firstOwner_spec (mem_valueFinset.mp hv)
    exact mem_contribPairs.mpr ⟨ho1, ho2⟩
  have h2 : ∀ u,
      ((valueFinset data).filter (fun v => firstOwner data v = u)).card ≤ b := by
    intro u
    have hsub : ((valueFinset data).filter (fun v => firstOwner data v = u))
        ⊆ (data.getD u []).toFinset := by
      intro v hv
      obtain ⟨hvV, hvu⟩ := Finset.mem_filter.mp hv
      obtain ⟨_, ho2⟩ := firstOwner_spec (mem_valueFinset.mp hvV)
      rw [hvu] at ho2
      exact List.mem_toFinset.mpr ho2
    refine le_trans (Finset.card_le_card hsub) ?_
    refine le_trans (List.toFinset_card_le _) ?_
    by_cases hu : u < data.length
    · exact le_trans (length_le_degree (getD_mem_of_lt hu)) hb
    · rw [getD_of_le data (by omega)]
      simp
  obtain ⟨S, hS, hcard⟩ := selection_of_cover (valueFinset data)
    (firstOwner data) h1 h2
  calc numberOfValues data = S.card := hcard.symm
    _ ≤ _ := selection_le_matching hS

/-- distinct_count.py cross-property: with b at least the degree, matching
attains exactly the number of distinct values. -/
theorem matching_eq_values {data : DataSet} {b : Nat}
    (hb : degree data ≤ b) :
    matching_distinct_count data b = numberOfValues data :=
  le_antisymm
    (matching_le_of_selections fun _ hS => selection_card_le_values hS)
    (values_le_matching hb)

theorem greedy_state_eq_values {data : DataSet} {t : Nat}
    (ht : degree data ≤ t) :
    ((greedyState data t).2).card = numberOfValues data := by
  have h1 : (greedyState data t).2 = valueFinset data :=
    Finset.Subset.antisymm (greedyState_res_sub data t) (greedyState_covers data ht)
  rw [h1]
  rfl

/-- Every admissible sampling outcome is a union of per-user draws whose
values form a b-bounded selection. -/
theorem sampling_le_matching_aux {data : DataSet} {b : Nat}
    {draws : List (List Nat)} (hok : SamplesOk data b draws) :
    sampling_distinct_count data b draws ≤ matching_distinct_count data b := by
  classical
  obtain ⟨hlen, hdr⟩ := hok
  have h1 : ∀ v ∈ valueFinset draws,
      (firstOwner draws v, v) ∈ contribPairs data := by
    intro v hv
    obtain ⟨ho1, ho2⟩ := firstOwner_spec (mem_valueFinset.mp hv)
    have hi : firstOwner draws v < data.length := hlen ▸ ho1
    have hsam := hdr (firstOwner draws v) hi
    refine mem_contribPairs.mpr ⟨hi, ?_⟩
    rcases hsam with ⟨_, heq⟩ | ⟨_, _, _, hsub⟩
    · rwa [← heq]
    · exact hsub v ho2
  have h2 : ∀ u,
      ((valueFinset draws).filter (fun v => firstOwner draws v = u)).card ≤ b := by
    intro u
    have hsub : ((valueFinset draws).filter (fun v => firstOwner draws v = u))
        ⊆ (draws.getD u []).toFinset := by
      intro v hv
      obtain ⟨hvV, hvu⟩ := Finset.mem_filter.mp hv
      obtain ⟨_, ho2⟩ := firstOwner_spec (mem_valueFinset.mp hvV)
      rw [hvu] at ho2
      exact List.mem_toFinset.mpr ho2
    refine le_trans (Finset.card_le_card hsub) ?_
    refine le_trans (List.toFinset_card_le _) ?_
    by_cases hu : u < data.length
    · rcases hdr u hu with ⟨hlt, heq⟩ | ⟨_, hdl, _, _⟩
      · rw [heq]; omega
      · omega
    · rw [getD_of_le draws (by omega)]
      simp
  obtain ⟨S, hS, hcard⟩ := selection_of_cover (valueFinset draws)
    (firstOwner draws) h1 h2
  unfold sampling_distinct_count
  rw [← hcard]
  exact selection_le_matching hS

/-- With b at least the degree, every admissible draw is the whole user list,
so sampling returns the exact distinct count. -/
theorem sampling_eq_values {data : DataSet} {b : Nat}
    (hnd : ∀ r ∈ data, r.Nodup) (hb : degree data ≤ b)
    {draws : List (List Nat)} (hok : SamplesOk data b draws) :
    sampling_distinct_count data b draws = numberOfValues data := by
  classical
  obtain ⟨hlen, hdr⟩ := hok
  have hdraw : ∀ i < data.length,
      (draws.getD i []).toFinset = (data.getD i []).toFinset := by
    intro i hi
    rcases hdr i hi with ⟨_, heq⟩ | ⟨hle, hdl, hdn, hdsub⟩
    · rw [heq]
    · have hrownd : (data.getD i []).Nodup := hnd _ (getD_mem_of_lt hi)
      have hrowlen : (data.getD i []).length ≤ b :=
        le_trans (length_le_degree (getD_mem_of_lt hi)) hb
      have hlen2 : (data.getD i []).length = b := by omega
      refine Finset.eq_of_subset_of_card_le ?_ ?_
      · intro v hv
        exact List.mem_toFinset.mpr (hdsub v (List.mem_toFinset.mp hv))
      · rw [List.toFinset_card_of_nodup hdn, List.toFinset_card_of_nodup hrownd]
        omega
  have hval : valueFinset draws = valueFinset data := by
    ext v
    simp only [mem_valueFinset]
    constructor
    · rintro ⟨r, hr, hvr⟩
      obtain ⟨⟨i, hi⟩, rfl⟩ := List.mem_iff_get.mp hr
      have hi2 : i < data.length := hlen ▸ hi
      have hgd : draws.getD i [] = draws.get ⟨i, hi⟩ := getD_eq_get_of_lt draws hi
      have hv2 : v ∈ (draws.getD i []).toFinset := by
        rw [hgd]
        exact List.mem_toFinset.mpr hvr
      rw [hdraw i hi2] at hv2
      exact ⟨data.getD i [], getD_mem_of_lt hi2, List.mem_toFinset.mp hv2⟩
    · rintro ⟨r, hr, hvr⟩
      obtain ⟨⟨i, hi⟩, rfl⟩ := List.mem_iff_get.mp hr
      have hrow : data.getD i [] = data.get ⟨i, hi⟩ := getD_eq_get_of_lt data hi
      have hv2 : v ∈ (data.getD i []).toFinset := by
        rw [hrow]
        exact List.mem_toFinset.mpr hvr
      rw [← hdraw i hi] at hv2
      have hi3 : firstOwner draws v < draws.length ∨ True := Or.inr trivial
      refine ⟨draws.getD i [], ?_, List.mem_toFinset.mp hv2⟩
      exact getD_mem_of_lt (hlen ▸ hi)
  unfold sampling_distinct_count
  rw [hval]
  rfl

/-- With b at least the degree: flow also attains the exact count (via the
matching equivalence; the degenerate bound 0 forces an empty dataset value
set). -/
theorem flow_eq_values {data : DataSet} {b : Nat} (hwf : WF data)
    (hb : degree data ≤ b) :
    flow_distinct_count data b = numberOfValues data := by
  rcases Nat.eq_zero_or_pos b with rfl | hb1
  · have hdeg : degree data = 0 := Nat.le_zero.mp hb
    have hm : numberOfValues data = 0 := by
      by_contra hm0
      have hne : (valueFinset data).Nonempty :=
        Finset.card_pos.mp (Nat.pos_of_ne_zero hm0)
      obtain ⟨v, hv⟩ := hne
      obtain ⟨r, hr, hvr⟩ := mem_valueFinset.mp hv
      have h1 : 1 ≤ r.length := List.length_pos.mpr (List.ne_nil_of_mem hvr)
      have h2 := length_le_degree hr
      omega
    rw [hm]
    refine Nat.le_zero.mp ?_
    refine Finset.sup_le ?_
    intro f hf
    obtain ⟨S, hS, hval⟩ := selection_of_flow hwf (Finset.mem_filter.mp hf).2
    rw [hval]
    have := selection_card_le_values hS
    omega
  · rw [← matching_eq_flow hwf hb1, matching_eq_values hb]

/-! ### Generalized Exponential mechanism (selection.py)

The reweighing computation of GeneralizedExponential.__init__ over the reals,
with the two assertions (and the failure on an empty utility sequence)
surfaced as errors, in the evaluation order of the Python code. -/

/-- Failure conditions of GeneralizedExponential.__init__. -/
inductive GEError where
  | lengthMismatch
  | degenerateSensitivity
  | emptyCandidateSet
deriving DecidableEq

/-- The arguments handed to diffprivlib.mechanisms.Exponential at the end of
GeneralizedExponential.__init__. -/
structure ExpParams where
  epsilon : ℝ
  sensitivity : ℝ
  utility : List ℝ

/-- Python min of a list (0 for the empty list, never reached). -/
noncomputable def listMin : List ℝ → ℝ
  | [] => 0
  | x :: xs => xs.foldl min x

/-- Python max of a list (0 for the empty list, never reached). -/
noncomputable def listMax : List ℝ → ℝ
  | [] => 0
  | x :: xs => xs.foldl max x

/-- The reweighed utility list (selection.py lines 42-56): shift the
utilities to minimum 0, then for each candidate i take the negated maximum
over j of the normalized shifted-utility differences. -/
noncomputable def reweighedUtility (epsilon beta : ℝ)
    (sens utility : List ℝ) : List ℝ :=
  let t := 2 * Real.log ((utility.length : ℝ) / beta) / epsilon
  let mn := listMin utility
  let u := utility.map (fun x => x - mn)
  (List.range utility.length).map (fun i =>
    - listMax ((List.range utility.length).map (fun j =>
        ((-(u.getD i 0) + sens.getD i 0 * t)
          - (-(u.getD j 0) + sens.getD j 0 * t))
          / (sens.getD i 0 + sens.getD j 0))))

open Classical in
/-- selection.py: GeneralizedExponential.__init__.  A scalar sensitivity is
broadcast over the utilities; the length assertion is checked first, then the
zero-sensitivity assertion; an empty utility sequence fails in the following
computation (math.log(0) and min of an empty sequence). -/
noncomputable def geInit (epsilon beta : ℝ) (sensitivity : Sum ℝ (List ℝ))
    (utility : List ℝ) : Except GEError ExpParams :=
  let sens := match sensitivity with
    | Sum.inl x => List.replicate utility.length x
    | Sum.inr xs => xs
  if sens.length ≠ utility.length then Except.error GEError.lengthMismatch
  else if (0 : ℝ) ∈ sens then Except.error GEError.degenerateSensitivity
  else if utility.length = 0 then Except.error GEError.emptyCandidateSet
  else Except.ok ⟨epsilon, 1, reweighedUtility epsilon beta sens utility⟩

/-- selection.py: GeneralizedExponential.randomise returns exactly what the
inner Exponential mechanism samples; constructed without a candidate list
that is an index into the utility list.  The sampled index is the
randomness oracle. -/
def geRandomise (draw : Nat) : Nat := draw

/-- report/dp.py: _dp_max_utility_selector.  Builds the penalized utility
array, constructs the GeneralizedExponential mechanism with the candidate
bounds as sensitivities, and returns a function mapping the sampled index to
the bound stored at that index. -/
noncomputable def dpMaxUtilitySelector (epsilon beta : ℝ) (counts : List ℝ)
    (user_contribution_bounds : List Nat) : Except GEError (Nat → Nat) :=
  let utility := List.zipWith
    (fun (c : ℝ) (bd : Nat) => c - (bd : ℝ) / epsilon * Real.log (0.5 / beta))
    counts user_contribution_bounds
  (geInit epsilon beta
      (Sum.inr (user_contribution_bounds.map (fun bd : Nat => (bd : ℝ))))
      utility).map
    (fun _ => fun draw => user_contribution_bounds.getD (geRandomise draw) 0)

theorem except_map_ok {E A B : Type} (f : A → B) (x : Except E A) (b : B)
    (h : Except.map f x = Except.ok b) : ∃ a, x = Except.ok a ∧ b = f a := by
  cases x with
  | error e => simp [Except.map] at h
  | ok a =>
      refine ⟨a, rfl, ?_⟩
      simpa [Except.map] using h.symm

theorem listMax_append_singleton (l : List ℝ) (hl : l ≠ []) (a : ℝ) :
    listMax (l ++ [a]) = max (listMax l) a := by
  cases l with
  | nil => exact absurd rfl hl
  | cons x xs => simp [listMax, List.foldl_append]

theorem listMin_append_singleton (l : List ℝ) (hl : l ≠ []) (a : ℝ) :
    listMin (l ++ [a]) = min (listMin l) a := by
  cases l with
  | nil => exact absurd rfl hl
  | cons x xs => simp [listMin, List.foldl_append]

theorem sup'_range_succ (g : Nat → ℝ) (k : Nat) (hk : k ≠ 0) :
    (Finset.range (k + 1)).sup'
        (Finset.nonempty_range_iff.mpr (Nat.succ_ne_zero k)) g =
      max ((Finset.range k).sup' (Finset.nonempty_range_iff.mpr hk) g) (g k) := by
  have hne : (Finset.range k).Nonempty := Finset.nonempty_range_iff.mpr hk
  calc (Finset.range (k + 1)).sup'
        (Finset.nonempty_range_iff.mpr (Nat.succ_ne_zero k)) g
      = (insert k (Finset.range k)).sup' (Finset.insert_nonempty _ _) g :=
        Finset.sup'_congr _ Finset.range_succ (fun _ _ => rfl)
    _ = g k ⊔ (Finset.range k).sup' hne g := Finset.sup'_insert hne g
    _ = max ((Finset.range k).sup' hne g) (g k) := max_comm _ _

theorem inf'_range_succ (g : Nat → ℝ) (k : Nat) (hk : k ≠ 0) :
    (Finset.range (k + 1)).inf'
        (Finset.nonempty_range_iff.mpr (Nat.succ_ne_zero k)) g =
      min ((Finset.range k).inf' (Finset.nonempty_range_iff.mpr hk) g) (g k) := by
  have hne : (Finset.range k).Nonempty := Finset.nonempty_range_iff.mpr hk
  calc (Finset.range (k + 1)).inf'
        (Finset.nonempty_range_iff.mpr (Nat.succ_ne_zero k)) g
      = (insert k (Finset.range k)).inf' (Finset.insert_nonempty _ _) g :=
        Finset.inf'_congr _ Finset.range_succ (fun _ _ => rfl)
    _ = g k ⊓ (Finset.range k).inf' hne g := Finset.inf'_insert hne g
    _ = min ((Finset.range k).inf' hne g) (g k) := min_comm _ _

theorem listMax_map_range (g : Nat → ℝ) :
    ∀ k : Nat, ∀ hk : k ≠ 0,
      listMax ((List.range k).map g) =
        (Finset.range k).sup' (Finset.nonempty_range_iff.mpr hk) g := by
  intro k
  induction k with
  | zero => intro hk; exact absurd rfl hk
  | succ k2 ih =>
      intro _
      rcases Nat.eq_zero_or_pos k2 with rfl | hk2
      · have h0 : listMax (List.map g (List.range 1)) = g 0 := rfl
        rw [h0]
        refine (Finset.sup'_eq_of_forall _ _ ?_).symm
        intro b hb
        have hb0 : b = 0 := by
          simpa [Nat.lt_one_iff] using Finset.mem_range.mp hb
        rw [hb0]
      · have hk2ne : k2 ≠ 0 := Nat.pos_iff_ne_zero.mp hk2
        have hne : (List.range k2).map g ≠ [] := by
          simp [List.map_eq_nil, List.range_eq_nil, hk2ne]
        rw [List.range_succ, List.map_append, List.map_singleton,
          listMax_append_singleton _ hne, ih hk2ne]
        exact (sup'_range_succ g k2 hk2ne).symm

theorem listMin_map_range (g : Nat → ℝ) :
    ∀ k : Nat, ∀ hk : k ≠ 0,
      listMin ((List.range k).map g) =
        (Finset.range k).inf' (Finset.nonempty_range_iff.mpr hk) g := by
  intro k
  induction k with
  | zero => intro hk; exact absurd rfl hk
  | succ k2 ih =>
      intro _
      rcases Nat.eq_zero_or_pos k2 with rfl | hk2
      · have h0 : listMin (List.map g (List.range 1)) = g 0 := rfl
        rw [h0]
        refine (Finset.inf'_eq_of_forall _ _ ?_).symm
        intro b hb
        have hb0 : b = 0 := by
          simpa [Nat.lt_one_iff] using Finset.mem_range.mp hb
        rw [hb0]
      · have hk2ne : k2 ≠ 0 := Nat.pos_iff_ne_zero.mp hk2
        have hne : (List.range k2).map g ≠ [] := by
          simp [List.map_eq_nil, List.range_eq_nil, hk2ne]
        rw [List.range_succ, List.map_append, List.map_singleton,
          listMin_append_singleton _ hne, ih hk2ne]
        exact (inf'_range_succ g k2 hk2ne).symm

theorem getD_map_range (F : Nat → ℝ) {i k : Nat} (h : i < k) :
    ((List.range k).map F).getD i 0 = F i := by
  rw [List.getD_eq_getD_get?, List.get?_map, List.get?_range h]
  rfl

theorem getD_real_map (f : ℝ → ℝ) (l : List ℝ) {i : Nat} (h : i < l.length)
    (d d2 : ℝ) : (l.map f).getD i d = f (l.getD i d2) := by
  induction l generalizing i with
  | nil => simp at h
  | cons x xs ih =>
      cases i with
      | zero => rfl
      | succ j => exact ih (by simpa using h)

theorem getD_real_eq_get_of_lt (l : List ℝ) {i : Nat} (h : i < l.length) :
    l.getD i 0 = l.get ⟨i, h⟩ := by
  induction l generalizing i with
  | nil => simp at h
  | cons x xs ih =>
      cases i with
      | zero => rfl
      | succ j => exact ih (by simpa using h)

/-- The Python min of a nonempty real list as a Finset minimum over the
indices. -/
theorem listMin_eq_inf {u : List ℝ} (hne : u ≠ []) :
    listMin u = (Finset.range u.length).inf'
      (Finset.nonempty_range_iff.mpr (by simpa using hne))
      (fun j => u.getD j 0) := by
  have hlen : u.length ≠ 0 := by simpa using hne
  have h1 : (List.range u.length).map (fun j => u.getD j 0) = u := by
    refine List.ext_get (by simp) ?_
    intro i hi1 hi2
    simp only [List.get_map, List.get_range]
    exact getD_real_eq_get_of_lt u hi2
  rw [← listMin_map_range (fun j => u.getD j 0) u.length hlen, h1]

/-! ### Shifted-Inverse estimator (shifted_inverse.py)

The LP built by _bounds, _objective_coefficients, _inequalities_coefficients
and _inequalities_bounds has one variable per user (indices 0..n-1) and one
per value (indices n..n+m-1), all in [0,1]; every contribution (u, v) yields
the inequality w (n+v) ≤ w u, and the user weights sum to at most
users_to_delete.  _sensitivity returns the negated linprog minimum, i.e. the
maximum of the value-weight sum over this region. -/

/-- Feasible points of the LP of shifted_inverse.py for a given
users_to_delete bound d. -/
def LPFeasible (data : DataSet) (d : ℝ) (w : Nat → ℝ) : Prop :=
  (∀ i < data.length + numberOfValues data, 0 ≤ w i ∧ w i ≤ 1) ∧
  (∀ p ∈ contribPairs data, w (data.length + p.2) ≤ w p.1) ∧
  (∑ u in Finset.range data.length, w u) ≤ d

/-- shifted_inverse.py: _sensitivity, the LP optimum. -/
noncomputable def lpSensitivity (data : DataSet) (d : ℝ) : ℝ :=
  sSup { z : ℝ | ∃ w : Nat → ℝ, LPFeasible data d w ∧
    z = ∑ v in Finset.range (numberOfValues data), w (data.length + v) }

/-- shifted_inverse.py: _round, ceiling to the next multiple of step. -/
noncomputable def roundStep (value step : ℝ) : ℝ := ⌈value / step⌉ * step

/-- The quantity tau computed by shifted_inverse_distinct_count. -/
noncomputable def siTau (epsilon error_level : ℝ) (upper_bound : Nat)
    (beta : ℝ) : ℤ :=
  ⌈2 / epsilon *
    Real.log ((Real.logb 10 upper_bound / error_level + 1) / beta)⌉

open Classical in
/-- The list results[1..2 tau] of rounded log-scale bin edges computed by the
loop of shifted_inverse_distinct_count; none models the math domain error
raised by math.log when number_of_values - sensitivity(d) is not positive. -/
noncomputable def siBinEdges (data : DataSet) (epsilon error_level : ℝ)
    (upper_bound : Nat) (beta : ℝ) : Option (List ℝ) :=
  (List.range (2 * siTau epsilon error_level upper_bound beta).toNat).mapM
    (fun d : Nat =>
      if 0 < (numberOfValues data : ℝ) - lpSensitivity data (d : ℝ) then
        some (roundStep
          (Real.logb 10 ((numberOfValues data : ℝ) - lpSensitivity data (d : ℝ)))
          error_level)
      else none)

/-- shifted_inverse.py: shifted_inverse_distinct_count as a function of the
two random draws: binDraw is the candidate sampled by the epsilon/2
Exponential mechanism over candidates 0..2 tau - 1, and unif the uniform
draw between the two adjacent bin edges (an admissibility constraint of the
theorems); the returned value is int(10 ** unif). -/
noncomputable def shifted_inverse_distinct_count (data : DataSet)
    (epsilon error_level : ℝ) (upper_bound : Nat) (beta : ℝ)
    (binDraw : Nat) (unif : ℝ) : Option ℤ :=
  match siBinEdges data epsilon error_level upper_bound beta with
  | none => none
  | some _ => some ⌊(10 : ℝ) ^ unif⌋

theorem lp_objective_le {data : DataSet} {d : ℝ} {z : ℝ}
    (hz : ∃ w : Nat → ℝ, LPFeasible data d w ∧
      z = ∑ v in Finset.range (numberOfValues data), w (data.length + v)) :
    z ≤ (numberOfValues data : ℝ) := by
  obtain ⟨w, ⟨hbox, _, _⟩, rfl⟩ := hz
  calc ∑ v in Finset.range (numberOfValues data), w (data.length + v)
      ≤ ∑ _v in Finset.range (numberOfValues data), (1 : ℝ) := by
        refine Finset.sum_le_sum ?_
        intro v hv
        have hvm := Finset.mem_range.mp hv
        exact (hbox (data.length + v) (by omega)).2
    _ = (numberOfValues data : ℝ) := by simp

/-- Once d is at least the number of users, the all-ones point is feasible
and the LP optimum equals the number of values. -/
theorem lpSensitivity_eq_of_ge {data : DataSet} {d : ℝ}
    (hd : (data.length : ℝ) ≤ d) :
    lpSensitivity data d = (numberOfValues data : ℝ) := by
  have hmem : (numberOfValues data : ℝ) ∈
      { z : ℝ | ∃ w : Nat → ℝ, LPFeasible data d w ∧
        z = ∑ v in Finset.range (numberOfValues data), w (data.length + v) } := by
    refine ⟨fun _ => 1, ⟨?_, ?_, ?_⟩, ?_⟩
    · intro i _; norm_num
    · intro p _; exact le_refl _
    · simpa using hd
    · simp
  refine le_antisymm ?_ (le_csSup ⟨(numberOfValues data : ℝ),
    fun z hz => lp_objective_le hz⟩ hmem)
  exact Real.sSup_le (fun z hz => lp_objective_le hz) (Nat.cast_nonneg _)

/-- With no users allowed, every value weight is forced to 0 (each value is
contributed by some user, whose weight must be 0). -/
theorem lpSensitivity_zero {data : DataSet} (hwf : WF data) :
    lpSensitivity data 0 = 0 := by
  have hub : ∀ z ∈ { z : ℝ | ∃ w : Nat → ℝ, LPFeasible data 0 w ∧
      z = ∑ v in Finset.range (numberOfValues data), w (data.length + v) },
      z ≤ 0 := by
    rintro z ⟨w, ⟨hbox, hpair, hsum⟩, rfl⟩
    have huser : ∀ u < data.length, w u = 0 := by
      intro u hu
      have h0 : 0 ≤ w u := (hbox u (by omega)).1
      have h1 : w u ≤ ∑ x in Finset.range data.length, w x := by
        refine Finset.single_le_sum ?_ (Finset.mem_range.mpr hu)
        intro x hx
        exact (hbox x (by have := Finset.mem_range.mp hx; omega)).1
      linarith
    refine Finset.sum_nonpos ?_
    intro v hv
    have hvm := Finset.mem_range.mp hv
    have hvval : v ∈ valueFinset data := by
      rw [hwf.2]
      exact Finset.mem_range.mpr hvm
    obtain ⟨r, hr, hvr⟩ := mem_valueFinset.mp hvval
    obtain ⟨⟨u, hu⟩, rfl⟩ := List.mem_iff_get.mp hr
    have hpmem : (u, v) ∈ contribPairs data := by
      refine mem_contribPairs.mpr ⟨hu, ?_⟩
      rw [getD_eq_get_of_lt data hu]
      exact hvr
    have := hpair (u, v) hpmem
    have := huser u hu
    simp only at *
    linarith
  have hmem0 : (0 : ℝ) ∈ { z : ℝ | ∃ w : Nat → ℝ, LPFeasible data 0 w ∧
      z = ∑ v in Finset.range (numberOfValues data), w (data.length + v) } := by
    refine ⟨fun _ => 0, ⟨?_, ?_, ?_⟩, ?_⟩
    · intro i _; norm_num
    · intro p _; exact le_refl _
    · simp
    · simp
  exact le_antisymm (Real.sSup_le hub le_rfl) (le_csSup ⟨0, hub⟩ hmem0)

/-- The LP optimum for the two-users-one-value dataset at d = 1: the value
weight is at most the average of the two user weights, and one half is
attained. -/
theorem lpSensitivity_pair : lpSensitivity [[0], [0]] 1 = 1 / 2 := by
  have hub : ∀ z ∈ { z : ℝ | ∃ w : Nat → ℝ, LPFeasible [[0], [0]] 1 w ∧
      z = ∑ v in Finset.range (numberOfValues [[0], [0]]), w
        (([[0], [0]] : DataSet).length + v) }, z ≤ 1 / 2 := by
    rintro z ⟨w, ⟨hbox, hpair, hsum⟩, rfl⟩
    have hm : numberOfValues [[0], [0]] = 1 := by decide
    have hn : ([[0], [0]] : DataSet).length = 2 := rfl
    rw [hm, hn, Finset.sum_range_one]
    have hp0 : ((0, 0) : Nat × Nat) ∈ contribPairs [[0], [0]] := by decide
    have hp1 : ((1, 0) : Nat × Nat) ∈ contribPairs [[0], [0]] := by decide
    have h1 := hpair (0, 0) hp0
    have h2 := hpair (1, 0) hp1
    rw [hn] at h1 h2
    have h3 : ∑ u in Finset.range ([[0], [0]] : DataSet).length, w u =
        w 0 + w 1 := by
      rw [hn, Finset.sum_range_succ, Finset.sum_range_one]
    rw [h3] at hsum
    simp only [Nat.add_zero] at h1 h2
    linarith
  have hmem : (1 / 2 : ℝ) ∈ { z : ℝ | ∃ w : Nat → ℝ,
      LPFeasible [[0], [0]] 1 w ∧
      z = ∑ v in Finset.range (numberOfValues [[0], [0]]),
        w (([[0], [0]] : DataSet).length + v) } := by
    refine ⟨fun _ => 1 / 2, ⟨?_, ?_, ?_⟩, ?_⟩
    · intro i _; norm_num
    · intro p _; exact le_refl _
    · have hn : ([[0], [0]] : DataSet).length = 2 := rfl
      rw [hn, Finset.sum_range_succ, Finset.sum_range_one]
      norm_num
    · have hm : numberOfValues [[0], [0]] = 1 := by decide
      rw [hm, Finset.sum_range_one]
  exact le_antisymm (Real.sSup_le hub (by norm_num)) (le_csSup ⟨1 / 2, hub⟩ hmem)

theorem mapM'_option_none {α β : Type} (f : α → Option β) :
    ∀ (l : List α) (x : α), x ∈ l → f x = none → List.mapM' f l = none := by
  intro l
  induction l with
  | nil => intro x hx; cases hx
  | cons a rest ih =>
      intro x hx hfx
      rcases List.mem_cons.mp hx with rfl | hx2
      · simp [List.mapM'_cons, hfx]
      · cases hfa : f a with
        | none => simp [List.mapM'_cons, hfa]
        | some b => simp [List.mapM'_cons, hfa, ih x hx2 hfx]

theorem mapM_option_none {α β : Type} (f : α → Option β) (l : List α)
    (x : α) (hx : x ∈ l) (hfx : f x = none) : l.mapM f = none := by
  rw [← List.mapM'_eq_mapM]
  exact mapM'_option_none f l x hx hfx

/-- If some users_to_delete value in the loop range drives the LP optimum to
number_of_values, the bin-edge loop hits math.log of zero. -/
theorem siBinEdges_none (data : DataSet) (epsilon error_level : ℝ)
    (upper_bound : Nat) (beta : ℝ)
    (h : ∃ d < (2 * siTau epsilon error_level upper_bound beta).toNat,
      lpSensitivity data (d : ℝ) = (numberOfValues data : ℝ)) :
    siBinEdges data epsilon error_level upper_bound beta = none := by
  obtain ⟨d, hd, hsen⟩ := h
  refine mapM_option_none _ _ d (List.mem_range.mpr hd) ?_
  rw [if_neg]
  rw [hsen]
  simp

theorem log_ten_pos : (0 : ℝ) < Real.log 10 := Real.log_pos (by norm_num)

theorem logb_ten_two_lb : (3 / 10 : ℝ) ≤ Real.logb 10 2 := by
  rw [← Real.log_div_log, le_div_iff log_ten_pos]
  have h1 : Real.log 1000 ≤ Real.log 1024 :=
    Real.log_le_log (by norm_num) (by norm_num)
  have h2 : Real.log 1000 = 3 * Real.log 10 := by
    rw [show (1000 : ℝ) = 10 ^ (3 : Nat) by norm_num, Real.log_pow]
    push_cast
    ring
  have h3 : Real.log 1024 = 10 * Real.log 2 := by
    rw [show (1024 : ℝ) = 2 ^ (10 : Nat) by norm_num, Real.log_pow]
    push_cast
    ring
  linarith

theorem logb_ten_two_ub : Real.logb 10 2 < 6 / 10 := by
  rw [← Real.log_div_log, div_lt_iff log_ten_pos]
  have h1 : Real.log 1024 < Real.log 1000000 :=
    Real.log_lt_log (by norm_num) (by norm_num)
  have h2 : Real.log 1000000 = 6 * Real.log 10 := by
    rw [show (1000000 : ℝ) = 10 ^ (6 : Nat) by norm_num, Real.log_pow]
    push_cast
    ring
  have h3 : Real.log 1024 = 10 * Real.log 2 := by
    rw [show (1024 : ℝ) = 2 ^ (10 : Nat) by norm_num, Real.log_pow]
    push_cast
    ring
  linarith

theorem roundStep_zero (step : ℝ) : roundStep 0 step = 0 := by
  simp [roundStep]

theorem roundStep_log_half :
    roundStep (Real.logb 10 (1 / 2)) (3 / 10) = -(3 / 10) := by
  have h0 : Real.logb 10 ((1 : ℝ) / 2) = -Real.logb 10 2 := by
    rw [show (1 : ℝ) / 2 = (2 : ℝ)⁻¹ by norm_num, Real.logb_inv]
  rw [roundStep, h0]
  have hceil : ⌈-Real.logb 10 2 / (3 / 10)⌉ = -1 := by
    have hlb := logb_ten_two_lb
    have hub := logb_ten_two_ub
    refine Int.ceil_eq_iff.mpr ⟨?_, ?_⟩
    · push_cast
      rw [lt_div_iff (by norm_num : (0 : ℝ) < 3 / 10)]
      linarith
    · push_cast
      rw [div_le_iff (by norm_num : (0 : ℝ) < 3 / 10)]
      linarith
  rw [hceil]
  push_cast
  ring

theorem siTau_eval : siTau 2 (3 / 10) 1 (1 / 2) = 1 := by
  unfold siTau
  have h1 : Real.logb 10 ((1 : Nat) : ℝ) = 0 := by
    rw [Nat.cast_one, Real.logb_one]
  rw [h1]
  have h2 : ((0 : ℝ) / (3 / 10) + 1) / (1 / 2) = 2 := by norm_num
  rw [h2]
  have h3 : (2 : ℝ) / 2 * Real.log 2 = Real.log 2 := by norm_num
  rw [h3]
  have hlb := Real.log_pos (by norm_num : (1 : ℝ) < 2)
  have hub := Real.log_two_lt_d9
  refine Int.ceil_eq_iff.mpr ⟨?_, ?_⟩
  · push_cast
    linarith
  · push_cast
    linarith

theorem numberOfValues_pair : numberOfValues [[0], [0]] = 1 := by decide

theorem wf_pair : WF [[0], [0]] := by decide

/-- The concrete bin edges of the shifted-inverse run on the
two-users-one-value dataset with epsilon 2, error level 3/10, upper bound 1
and beta 1/2. -/
theorem siBinEdges_pair :
    siBinEdges [[0], [0]] 2 (3 / 10) 1 (1 / 2) = some [0, -(3 / 10)] := by
  unfold siBinEdges
  rw [siTau_eval]
  rw [show ((2 * (1 : ℤ)).toNat) = 2 by rfl]
  rw [show List.range 2 = [0, 1] from rfl]
  rw [← List.mapM'_eq_mapM]
  have hm : ((numberOfValues [[0], [0]] : Nat) : ℝ) = 1 := by
    rw [numberOfValues_pair, Nat.cast_one]
  have hs0 : lpSensitivity [[0], [0]] ((0 : Nat) : ℝ) = 0 := by
    rw [Nat.cast_zero]
    exact lpSensitivity_zero wf_pair
  have hs1 : lpSensitivity [[0], [0]] ((1 : Nat) : ℝ) = 1 / 2 := by
    rw [Nat.cast_one]
    exact lpSensitivity_pair
  simp only [List.mapM'_cons, List.mapM'_nil]
  rw [hm, hs0, hs1]
  rw [if_pos (by norm_num : (0 : ℝ) < 1 - 0),
    if_pos (by norm_num : (0 : ℝ) < 1 - 1 / 2)]
  rw [show (1 : ℝ) - 0 = 1 by norm_num, Real.logb_one, roundStep_zero,
    show (1 : ℝ) - 1 / 2 = 1 / 2 by norm_num, roundStep_log_half]
  rfl

/-! ### Claim theorems -/

/-- C1: for every well-formed dataset and every positive contribution bound,
matching_distinct_count equals flow_distinct_count: the maximum bipartite
matching over the b-fold row-duplicated incidence matrix and the maximum
source-to-sink flow over the flow network compute the same count. -/
theorem matching_flow_crosscheck (data : DataSet) (b : Nat) (hwf : WF data)
    (hb : 1 ≤ b) :
    matching_distinct_count data b = flow_distinct_count data b :=
  matching_eq_flow hwf hb

theorem matching_flow_crosscheck_witness :
    WF [[0], [1]] ∧ 1 ≤ 1 ∧
    matching_distinct_count [[0], [1]] 1 = flow_distinct_count [[0], [1]] 1 :=
  ⟨by decide, le_refl 1, matching_flow_crosscheck [[0], [1]] 1 (by decide) (le_refl 1)⟩

/-- C2 counterexample: greedy_distinct_count performs no bound validation:
at the non-positive bound 0 it returns the number 0 (the round loop body
never runs), instead of failing with an InvalidBound condition; no such
condition exists in the code. -/
theorem greedy_zero_bound_returns_number : greedy_distinct_count [[0]] 0 = 0 := by
  decide

/-- C2 amended: the estimators do not validate the contribution bound; in
particular greedy_distinct_count returns the number 0 for every bound
b ≤ 0 (range(b) is empty), rather than failing with an InvalidBound
condition. -/
theorem greedy_nonpositive_bound_returns_zero (data : DataSet) (b : Int)
    (hb : b ≤ 0) : greedy_distinct_count data b = 0 := by
  unfold greedy_distinct_count
  rw [Int.toNat_of_nonpos hb]
  simp [greedyState]

theorem greedy_nonpositive_bound_returns_zero_witness :
    (-3 : Int) ≤ 0 ∧ greedy_distinct_count [[0, 1], [2]] (-3) = 0 :=
  ⟨by decide, greedy_nonpositive_bound_returns_zero [[0, 1], [2]] (-3) (by decide)⟩

/-- C3: for every well-formed dataset and every bound at least the degree,
greedy, matching, flow, and sampling (under every admissible random draw)
all return exactly true_distinct_count. -/
theorem estimators_exact_above_degree (data : DataSet) (b : Nat)
    (hwf : WF data) (hb : degree data ≤ b) :
    greedy_distinct_count data (b : Int) = true_distinct_count data ∧
    matching_distinct_count data b = true_distinct_count data ∧
    flow_distinct_count data b = true_distinct_count data ∧
    ∀ draws : List (List Nat), SamplesOk data b draws →
      sampling_distinct_count data b draws = true_distinct_count data := by
  refine ⟨?_, matching_eq_values hb, flow_eq_values hwf hb, ?_⟩
  · unfold greedy_distinct_count
    rw [Int.toNat_natCast]
    exact greedy_state_eq_values hb
  · intro draws hok
    exact sampling_eq_values hwf.1 hb hok

theorem estimators_exact_above_degree_witness :
    WF [[0]] ∧ degree [[0]] ≤ 1 ∧ SamplesOk [[0]] 1 [[0]] ∧
    greedy_distinct_count [[0]] ((1 : Nat) : Int) = true_distinct_count [[0]] ∧
    matching_distinct_count [[0]] 1 = true_distinct_count [[0]] ∧
    flow_distinct_count [[0]] 1 = true_distinct_count [[0]] ∧
    sampling_distinct_count [[0]] 1 [[0]] = true_distinct_count [[0]] := by
  have h := estimators_exact_above_degree [[0]] 1 (by decide) (by decide)
  exact ⟨by decide, by decide, by decide, h.1, h.2.1, h.2.2.1,
    h.2.2.2 [[0]] (by decide)⟩

/-- C4: for every dataset and every positive bound, the greedy estimate
never exceeds the matching optimum. -/
theorem greedy_le_matching_bound (data : DataSet) (b : Nat) (hb : 1 ≤ b) :
    greedy_distinct_count data (b : Int) ≤ matching_distinct_count data b := by
  unfold greedy_distinct_count
  rw [Int.toNat_natCast]
  exact greedyState_card_le_matching data b

theorem greedy_le_matching_bound_witness :
    1 ≤ 2 ∧ greedy_distinct_count [[0, 1], [1, 2]] ((2 : Nat) : Int) ≤
      matching_distinct_count [[0, 1], [1, 2]] 2 :=
  ⟨by decide, greedy_le_matching_bound [[0, 1], [1, 2]] 2 (by decide)⟩

/-- C5: for every well-formed dataset, positive bound and admissible outcome
of the per-user random draws, the sampling estimate never exceeds the
matching optimum. -/
theorem sampling_le_matching_bound (data : DataSet) (b : Nat) (hwf : WF data)
    (hb : 1 ≤ b) (draws : List (List Nat)) (hok : SamplesOk data b draws) :
    sampling_distinct_count data b draws ≤ matching_distinct_count data b :=
  sampling_le_matching_aux hok

theorem sampling_le_matching_bound_witness :
    WF [[0, 1]] ∧ 1 ≤ 1 ∧ SamplesOk [[0, 1]] 1 [[1]] ∧
    sampling_distinct_count [[0, 1]] 1 [[1]] ≤
      matching_distinct_count [[0, 1]] 1 :=
  ⟨by decide, le_refl 1, by decide,
    sampling_le_matching_bound [[0, 1]] 1 (by decide) (le_refl 1) [[1]] (by decide)⟩

/-- C10: whenever some users_to_delete value in the loop range 0..2 tau - 1
drives the LP optimum to number_of_values, shifted_inverse_distinct_count
hits a math domain error (log10 of zero) instead of returning an estimate;
in particular this happens whenever 2 tau - 1 is at least the number of
users, so the estimator is partial on small datasets or large tau. -/
theorem shifted_inverse_crashes_on_small_data (data : DataSet)
    (epsilon error_level : ℝ) (upper_bound : Nat) (beta : ℝ)
    (binDraw : Nat) (unif : ℝ) :
    ((∃ d < (2 * siTau epsilon error_level upper_bound beta).toNat,
        lpSensitivity data (d : ℝ) = (numberOfValues data : ℝ)) →
      shifted_inverse_distinct_count data epsilon error_level upper_bound beta
        binDraw unif = none) ∧
    (1 ≤ siTau epsilon error_level upper_bound beta →
      data.length ≤ 2 * (siTau epsilon error_level upper_bound beta).toNat - 1 →
      shifted_inverse_distinct_count data epsilon error_level upper_bound beta
        binDraw unif = none) := by
  constructor
  · intro h
    unfold shifted_inverse_distinct_count
    rw [siBinEdges_none data epsilon error_level upper_bound beta h]
  · intro htau hn
    have hk1 : 1 ≤ (siTau epsilon error_level upper_bound beta).toNat := by
      omega
    have hsen : lpSensitivity data
        ((2 * (siTau epsilon error_level upper_bound beta).toNat - 1 : Nat) : ℝ) =
        (numberOfValues data : ℝ) := by
      refine lpSensitivity_eq_of_ge ?_
      exact_mod_cast Nat.cast_le.mpr hn
    have hnone := siBinEdges_none data epsilon error_level upper_bound beta
      ⟨2 * (siTau epsilon error_level upper_bound beta).toNat - 1, by omega, hsen⟩
    unfold shifted_inverse_distinct_count
    rw [hnone]

theorem shifted_inverse_crashes_on_small_data_witness :
    1 ≤ siTau 2 (3 / 10) 1 (1 / 2) ∧
    ([[0]] : DataSet).length ≤ 2 * (siTau 2 (3 / 10) 1 (1 / 2)).toNat - 1 ∧
    shifted_inverse_distinct_count [[0]] 2 (3 / 10) 1 (1 / 2) 0 0 = none := by
  have h1 : (1 : ℤ) ≤ siTau 2 (3 / 10) 1 (1 / 2) := by rw [siTau_eval]
  have h2 : ([[0]] : DataSet).length ≤ 2 * (siTau 2 (3 / 10) 1 (1 / 2)).toNat - 1 := by
    rw [siTau_eval]
    decide
  exact ⟨h1, h2,
    (shifted_inverse_crashes_on_small_data [[0]] 2 (3 / 10) 1 (1 / 2) 0 0).2 h1 h2⟩

/-- C6: constructing the GeneralizedExponential selector computes
t = 2 ln(k/beta)/epsilon, shifts the utilities so their minimum is 0,
reweighs each candidate by the negated maximum over all candidates of the
normalized shifted-utility difference, and passes exactly these reweighed
utilities to an epsilon-DP Exponential mechanism with unit sensitivity. -/
theorem generalizedExponential_reweighting (epsilon beta : ℝ) (s u : List ℝ)
    (heps : 0 < epsilon) (hbeta0 : 0 < beta) (hbeta1 : beta < 1)
    (hlen : s.length = u.length) (hne : u ≠ []) (hs : ∀ x ∈ s, 0 < x) :
    ∃ W : List ℝ,
      geInit epsilon beta (Sum.inr s) u = Except.ok ⟨epsilon, 1, W⟩ ∧
      W.length = u.length ∧
      ∀ i, i < u.length →
        W.getD i 0 =
          - (Finset.range u.length).sup'
              (Finset.nonempty_range_iff.mpr (by simpa using hne))
              (fun j =>
                ((-(u.getD i 0 - (Finset.range u.length).inf'
                      (Finset.nonempty_range_iff.mpr (by simpa using hne))
                      (fun j2 => u.getD j2 0))
                    + s.getD i 0 *
                      (2 * Real.log ((u.length : ℝ) / beta) / epsilon))
                  - (-(u.getD j 0 - (Finset.range u.length).inf'
                      (Finset.nonempty_range_iff.mpr (by simpa using hne))
                      (fun j2 => u.getD j2 0))
                    + s.getD j 0 *
                      (2 * Real.log ((u.length : ℝ) / beta) / epsilon)))
                  / (s.getD i 0 + s.getD j 0)) := by
  have hk : u.length ≠ 0 := by simpa using hne
  have h0 : (0 : ℝ) ∉ s := fun h => absurd (hs 0 h) (lt_irrefl 0)
  refine ⟨reweighedUtility epsilon beta s u, ?_, ?_, ?_⟩
  · simp only [geInit]
    rw [if_neg (by simp [hlen]), if_neg h0, if_neg hk]
  · simp [reweighedUtility]
  · intro i hi
    simp only [reweighedUtility]
    rw [getD_map_range _ hi]
    congr 1
    rw [listMax_map_range _ u.length hk]
    refine Finset.sup'_congr _ rfl ?_
    intro j hj
    have hjlt : j < u.length := Finset.mem_range.mp hj
    rw [getD_real_map (fun x => x - listMin u) u hi 0 0,
      getD_real_map (fun x => x - listMin u) u hjlt 0 0,
      listMin_eq_inf hne]

theorem generalizedExponential_reweighting_witness :
    (0 : ℝ) < 1 ∧ (0 : ℝ) < 1 / 2 ∧ (1 / 2 : ℝ) < 1 ∧
    ([(2 : ℝ)].length = [(5 : ℝ)].length) ∧ ([(5 : ℝ)] ≠ []) ∧
    (∀ x ∈ [(2 : ℝ)], 0 < x) ∧
    ∃ W : List ℝ,
      geInit 1 (1 / 2) (Sum.inr [(2 : ℝ)]) [(5 : ℝ)] =
        Except.ok ⟨1, 1, W⟩ ∧ W.length = 1 := by
  refine ⟨by norm_num, by norm_num, by norm_num, rfl, by simp, ?_, ?_⟩
  · intro x hx
    rcases List.mem_singleton.mp hx with rfl
    norm_num
  · obtain ⟨W, hok, hlen2, _⟩ := generalizedExponential_reweighting 1 (1 / 2)
      [(2 : ℝ)] [(5 : ℝ)] (by norm_num) (by norm_num) (by norm_num) rfl
      (by simp) (by
        intro x hx
        rcases List.mem_singleton.mp hx with rfl
        norm_num)
    exact ⟨W, hok, hlen2⟩

/-- C7: with matching lengths (after broadcasting a scalar sensitivity over
the candidates), the GeneralizedExponential constructor fails with
DegenerateSensitivity exactly when some candidate sensitivity is zero; a
scalar sensitivity behaves as its broadcast sequence, and mismatched lengths
fail the length assertion. -/
theorem generalizedExponential_error_conditions (epsilon beta x : ℝ)
    (s u : List ℝ) (hlen : s.length = u.length) :
    (geInit epsilon beta (Sum.inl x) u =
      geInit epsilon beta (Sum.inr (List.replicate u.length x)) u) ∧
    (geInit epsilon beta (Sum.inr s) u =
        Except.error GEError.degenerateSensitivity ↔ (0 : ℝ) ∈ s) ∧
    (∀ s2 : List ℝ, s2.length ≠ u.length →
      geInit epsilon beta (Sum.inr s2) u =
        Except.error GEError.lengthMismatch) := by
  refine ⟨rfl, ?_, ?_⟩
  · simp only [geInit]
    rw [if_neg (by simp [hlen])]
    by_cases h0 : (0 : ℝ) ∈ s
    · rw [if_pos h0]
      simp [h0]
    · rw [if_neg h0]
      constructor
      · intro hcon
        by_cases hk : u.length = 0
        · rw [if_pos hk] at hcon
          exact absurd (Except.error.inj hcon) (by simp)
        · rw [if_neg hk] at hcon
          exact absurd hcon (by simp)
      · intro h
        exact absurd h h0
  · intro s2 hs2
    simp only [geInit]
    rw [if_pos hs2]

theorem generalizedExponential_error_conditions_witness :
    ([(0 : ℝ), 3].length = [(1 : ℝ), 2].length) ∧
    (geInit 1 (1 / 2) (Sum.inr [(0 : ℝ), 3]) [(1 : ℝ), 2] =
      Except.error GEError.degenerateSensitivity) := by
  have h := generalizedExponential_error_conditions 1 (1 / 2) 7
    [(0 : ℝ), 3] [(1 : ℝ), 2] rfl
  exact ⟨rfl, h.2.1.mpr (by simp)⟩

/-- C8: the private bound-selection pipeline returns the selected
candidate's bound value (the element of the supplied candidate bound list at
the sampled index), not the sampled index itself. -/
theorem dp_selector_returns_bound_value (epsilon beta : ℝ) (counts : List ℝ)
    (bounds : List Nat) (sel : Nat → Nat)
    (hok : dpMaxUtilitySelector epsilon beta counts bounds = Except.ok sel)
    (i : Nat) (hi : i < bounds.length) :
    sel i = bounds.get ⟨i, hi⟩ ∧ sel i ∈ bounds := by
  have hsel : sel = fun draw => bounds.getD (geRandomise draw) 0 := by
    unfold dpMaxUtilitySelector at hok
    obtain ⟨p, _, hb⟩ := except_map_ok _ _ _ hok
    exact hb
  rw [hsel]
  simp only [geRandomise]
  constructor
  · exact getD_nat_eq_get_of_lt bounds hi
  · rw [getD_nat_eq_get_of_lt bounds hi]
    exact List.get_mem bounds i hi

theorem dp_selector_returns_bound_value_witness :
    ∃ sel : Nat → Nat,
      dpMaxUtilitySelector 1 (1 / 2) [(1 : ℝ)] [5] = Except.ok sel ∧
      0 < [5].length ∧ sel 0 = 5 ∧ sel 0 ∈ [5] := by
  have hok : dpMaxUtilitySelector 1 (1 / 2) [(1 : ℝ)] [5] =
      Except.ok (fun draw => [5].getD (geRandomise draw) 0) := by
    unfold dpMaxUtilitySelector
    simp only [geInit]
    rw [if_neg (by simp), if_neg (by norm_num), if_neg (by simp)]
    rfl
  have h := dp_selector_returns_bound_value 1 (1 / 2) [(1 : ℝ)] [5]
    (fun draw => [5].getD (geRandomise draw) 0) hok 0 (by norm_num)
  exact ⟨fun draw => [5].getD (geRandomise draw) 0, hok, by norm_num, h.1, h.2⟩

/-- C9 counterexample: on the dataset with two users both holding value 0,
with epsilon 2, error level 3/10, upper bound 1 and beta 1/2, the bin edges
are [log10(1), 0, -3/10]; sampling bin 1 and drawing -1/4 uniformly between
the adjacent edges -3/10 and 0 is an admissible outcome, and the estimator
returns 0, which is below the claimed lower end 1 of [1, upper_bound]. -/
theorem shifted_inverse_output_below_one :
    siBinEdges [[0], [0]] 2 (3 / 10) 1 (1 / 2) = some [0, -(3 / 10)] ∧
    (-(3 / 10) : ℝ) ≤ -(1 / 4) ∧ (-(1 / 4) : ℝ) ≤ 0 ∧
    shifted_inverse_distinct_count [[0], [0]] 2 (3 / 10) 1 (1 / 2) 1
      (-(1 / 4)) = some 0 ∧
    ¬ (1 ≤ (0 : ℤ)) := by
  refine ⟨siBinEdges_pair, by norm_num, by norm_num, ?_, by norm_num⟩
  unfold shifted_inverse_distinct_count
  rw [siBinEdges_pair]
  have hfloor : ⌊(10 : ℝ) ^ (-(1 / 4) : ℝ)⌋ = 0 := by
    rw [Int.floor_eq_zero_iff]
    constructor
    · exact (Real.rpow_pos_of_pos (by norm_num) _).le
    · exact Real.rpow_lt_one_of_one_lt_of_neg (by norm_num) (by norm_num)
  rw [hfloor]

/-- C9 amended: for every admissible outcome of the two draws the
Shifted-Inverse estimator returns the integer int(10 ** U); this integer is
always at least 0 (not 1: it can be 0), and it is at most upper_bound
whenever every rounded bin edge is at most log10(upper_bound) (which the
rounding-up step does not guarantee in general). -/
theorem shifted_inverse_output_range (data : DataSet)
    (epsilon error_level : ℝ) (upper_bound : Nat) (beta : ℝ)
    (binDraw : Nat) (unif : ℝ) (tailEdges : List ℝ)
    (hedges : siBinEdges data epsilon error_level upper_bound beta =
      some tailEdges)
    (hB : 1 ≤ upper_bound)
    (hbin : binDraw + 1 < (Real.logb 10 upper_bound :: tailEdges).length)
    (hlo : min ((Real.logb 10 upper_bound :: tailEdges).getD (binDraw + 1) 0)
        ((Real.logb 10 upper_bound :: tailEdges).getD binDraw 0) ≤ unif)
    (hhi : unif ≤
      max ((Real.logb 10 upper_bound :: tailEdges).getD (binDraw + 1) 0)
        ((Real.logb 10 upper_bound :: tailEdges).getD binDraw 0))
    (hub : ∀ r ∈ tailEdges, r ≤ Real.logb 10 upper_bound) :
    shifted_inverse_distinct_count data epsilon error_level upper_bound beta
        binDraw unif = some ⌊(10 : ℝ) ^ unif⌋ ∧
    0 ≤ ⌊(10 : ℝ) ^ unif⌋ ∧ ⌊(10 : ℝ) ^ unif⌋ ≤ upper_bound := by
  have hmem : ∀ i, ∀ h : i < (Real.logb 10 upper_bound :: tailEdges).length,
      (Real.logb 10 upper_bound :: tailEdges).getD i 0 ≤
        Real.logb 10 upper_bound := by
    intro i h
    rw [getD_real_eq_get_of_lt _ h]
    have hm := List.get_mem (Real.logb 10 upper_bound :: tailEdges) i h
    rcases List.mem_cons.mp hm with heq | htail
    · exact le_of_eq heq
    · exact hub _ htail
  have h1 : unif ≤ Real.logb 10 upper_bound :=
    hhi.trans (max_le (hmem _ hbin) (hmem _ (Nat.lt_of_succ_lt hbin)))
  have hBpos : (0 : ℝ) < (upper_bound : ℝ) := by
    exact_mod_cast Nat.lt_of_lt_of_le Nat.zero_lt_one hB
  have h2 : (10 : ℝ) ^ unif ≤ (upper_bound : ℝ) := by
    calc (10 : ℝ) ^ unif ≤ (10 : ℝ) ^ Real.logb 10 upper_bound :=
        Real.rpow_le_rpow_of_exponent_le (by norm_num) h1
      _ = (upper_bound : ℝ) := Real.rpow_logb (by norm_num) (by norm_num) hBpos
  refine ⟨?_, ?_, ?_⟩
  · unfold shifted_inverse_distinct_count
    rw [hedges]
  · refine Int.le_floor.mpr ?_
    have := (Real.rpow_pos_of_pos (by norm_num : (0 : ℝ) < 10) unif).le
    exact_mod_cast this
  · calc ⌊(10 : ℝ) ^ unif⌋ ≤ ⌊(upper_bound : ℝ)⌋ := Int.floor_le_floor h2
      _ = upper_bound := Int.floor_natCast _

theorem shifted_inverse_output_range_witness :
    siBinEdges [[0], [0]] 2 (3 / 10) 1 (1 / 2) = some [0, -(3 / 10)] ∧
    1 ≤ 1 ∧
    shifted_inverse_distinct_count [[0], [0]] 2 (3 / 10) 1 (1 / 2) 1
        (-(1 / 4)) = some ⌊(10 : ℝ) ^ (-(1 / 4) : ℝ)⌋ ∧
    0 ≤ ⌊(10 : ℝ) ^ (-(1 / 4) : ℝ)⌋ ∧ ⌊(10 : ℝ) ^ (-(1 / 4) : ℝ)⌋ ≤ 1 := by
  have hlog1 : Real.logb 10 ((1 : Nat) : ℝ) = 0 := by
    rw [Nat.cast_one, Real.logb_one]
  have hgd2 : (Real.logb 10 ((1 : Nat) : ℝ) :: [(0 : ℝ), -(3 / 10)]).getD 2 0 =
      -(3 / 10) := rfl
  have hgd1 : (Real.logb 10 ((1 : Nat) : ℝ) :: [(0 : ℝ), -(3 / 10)]).getD 1 0 =
      0 := rfl
  have h := shifted_inverse_output_range [[0], [0]] 2 (3 / 10) 1 (1 / 2) 1
    (-(1 / 4)) [0, -(3 / 10)] siBinEdges_pair (le_refl 1)
    (by simp)
    (by rw [hgd2, hgd1]; norm_num)
    (by rw [hgd2, hgd1]; norm_num)
    (by
      intro r hr
      rw [hlog1]
      rcases List.mem_cons.mp hr with rfl | hr2
      · exact le_refl 0
      · rcases List.mem_singleton.mp hr2 with rfl
        norm_num)
  exact ⟨siBinEdges_pair, le_refl 1, h.1, h.2.1, h.2.2⟩

end PCDE
